import Mathlib

/-!
Verification development for the NanoPerplexityAI pipeline (src/app.py).

The core pure logic of the program is the citation reconciliation step
(renumber_citations, generate_citation_links, composed in save_markdown)
together with the fetch/collect layer (fetch_webpage, google_parse_webpages).
Strings are modelled as lists of characters; the regular expression
scans of the source are modelled by explicit scanners that follow the
semantics of the patterns used in the source:

  re.findall(r'\[\(?(\d+)\)?\]', response)          -- marker scanner
  re.sub(rf'\[\(?OLD\)?\]', f'[NEW]', response)     -- marker rewriter

Both patterns are deterministic (no backtracking can change the result,
since a parenthesis is never a digit and a digit is never a closing
bracket), so a single left-to-right greedy scan is an exact model.
-/

/-- ASCII digit test, the semantics of the regex class d for the
ASCII strings this pipeline handles. -/
def isDig (c : Char) : Bool := 48 ≤ c.toNat && c.toNat ≤ 57

/-- Numeric value of one ASCII digit character. -/
def dval (c : Char) : Nat := c.toNat - 48

/-- Value of a digit string, the model of Python int() on a string of
digits (accepts leading zeros, e.g. int("007") = 7). -/
def digitsVal (ds : List Char) : Nat := ds.foldl (fun a c => a * 10 + dval c) 0

/-- The ASCII digit character for a value below ten. -/
def digitChar : Nat → Char
  | 0 => '0' | 1 => '1' | 2 => '2' | 3 => '3' | 4 => '4'
  | 5 => '5' | 6 => '6' | 7 => '7' | 8 => '8' | 9 => '9'
  | _ => '*'

/-- Fuelled decimal rendering of a natural number (most significant digit
first), the model of Python str()/format on a nonnegative int. -/
def natReprF : Nat → Nat → List Char → List Char
  | 0, _, acc => acc
  | f + 1, n, acc =>
    if n < 10 then digitChar n :: acc
    else natReprF f (n / 10) (digitChar (n % 10) :: acc)

/-- Decimal rendering of a natural number. -/
def natRepr (n : Nat) : List Char := natReprF (n + 1) n []

theorem dval_digitChar {d : Nat} (h : d < 10) : dval (digitChar d) = d := by
  interval_cases d <;> decide

theorem isDig_digitChar {d : Nat} (h : d < 10) : isDig (digitChar d) = true := by
  interval_cases d <;> decide

theorem natReprF_spec : ∀ f n acc, n < f →
    ∃ pre, natReprF f n acc = pre ++ acc ∧ pre ≠ [] ∧
      (∀ c ∈ pre, isDig c = true) ∧
      (∀ a : Nat, pre.foldl (fun x c => x * 10 + dval c) a = a * 10 ^ pre.length + n) := by
  intro f
  induction f with
  | zero => intro n acc h; omega
  | succ f ih =>
    intro n acc h
    by_cases h10 : n < 10
    · refine ⟨[digitChar n], ?_, by simp, ?_, ?_⟩
      · simp [natReprF, h10]
      · intro c hc; simp at hc; subst hc; exact isDig_digitChar h10
      · intro a; simp [List.foldl, dval_digitChar h10]
    · have hlt : n / 10 < f := by
        have h1 : n / 10 < n := Nat.div_lt_self (by omega) (by omega)
        omega
      obtain ⟨pre, heq, hne, hdig, hval⟩ := ih (n / 10) (digitChar (n % 10) :: acc) hlt
      refine ⟨pre ++ [digitChar (n % 10)], ?_, by simp, ?_, ?_⟩
      · simp [natReprF, h10, heq]
      · intro c hc
        rcases List.mem_append.1 hc with h1 | h1
        · exact hdig c h1
        · simp at h1; subst h1; exact isDig_digitChar (Nat.mod_lt _ (by omega))
      · intro a
        rw [List.foldl_append, hval a]
        simp [List.foldl, dval_digitChar (Nat.mod_lt n (show 0 < 10 by omega))]
        rw [Nat.pow_succ]
        have := Nat.div_add_mod n 10
        ring_nf
        omega

theorem natRepr_ne_nil (n : Nat) : natRepr n ≠ [] := by
  obtain ⟨pre, heq, hne, _, _⟩ := natReprF_spec (n + 1) n [] (by omega)
  simp [natRepr, heq]
  intro hcon
  simp [hcon] at hne

theorem natRepr_digits (n : Nat) : ∀ c ∈ natRepr n, isDig c = true := by
  obtain ⟨pre, heq, _, hdig, _⟩ := natReprF_spec (n + 1) n [] (by omega)
  simp [natRepr, heq]
  simpa using hdig

theorem digitsVal_natRepr (n : Nat) : digitsVal (natRepr n) = n := by
  obtain ⟨pre, heq, _, _, hval⟩ := natReprF_spec (n + 1) n [] (by omega)
  simp [natRepr, heq, digitsVal]
  simpa using hval 0

theorem natRepr_inj {a b : Nat} (h : natRepr a = natRepr b) : a = b := by
  have := digitsVal_natRepr a
  rw [h, digitsVal_natRepr] at this
  omega

theorem isDig_ne_lbrack {c : Char} (h : isDig c = true) : c ≠ '[' := by
  intro he; subst he; exact absurd h (by decide)

theorem isDig_ne_rbrack {c : Char} (h : isDig c = true) : c ≠ ']' := by
  intro he; subst he; exact absurd h (by decide)

theorem isDig_ne_lparen {c : Char} (h : isDig c = true) : c ≠ '(' := by
  intro he; subst he; exact absurd h (by decide)

theorem isDig_ne_rparen {c : Char} (h : isDig c = true) : c ≠ ')' := by
  intro he; subst he; exact absurd h (by decide)

/-- A citation token as matched by the source pattern: an opening
bracket, an optional opening parenthesis, one or more digits, an
optional closing parenthesis, and a closing bracket. -/
structure Cite where
  lp : Bool
  ds : List Char
  rp : Bool
deriving DecidableEq

/-- The text a parenthesis flag stands for on the left of the digits. -/
def parenL (b : Bool) : List Char := if b then ['('] else []

/-- The text a parenthesis flag stands for on the right of the digits. -/
def parenR (b : Bool) : List Char := if b then [')'] else []

/-- The characters strictly between the brackets of a citation token. -/
def Cite.core (ct : Cite) : List Char := parenL ct.lp ++ ct.ds ++ parenR ct.rp

/-- The exact text of a citation token. -/
def Cite.render (ct : Cite) : List Char := '[' :: (ct.core ++ [']'])

/-- Well-formedness of a citation token: at least one digit, digits only. -/
def WFC (ct : Cite) : Prop := ct.ds ≠ [] ∧ ∀ c ∈ ct.ds, isDig c = true

instance : DecidablePred WFC := fun ct => by unfold WFC; infer_instance

/-- One element of the token decomposition of a scanned string: either a
single ordinary character or a whole citation token. -/
inductive Tok where
  | lit : Char → Tok
  | cite : Cite → Tok
deriving DecidableEq

/-- The text of one token. -/
def Tok.render : Tok → List Char
  | .lit c => [c]
  | .cite ct => ct.render

/-- Concatenate the texts of a token list back into a string. -/
def untok : List Tok → List Char
  | [] => []
  | t :: ts => t.render ++ untok ts


/-- Close a citation token: the model of the regex tail (an optional
closing parenthesis, then the closing bracket) after the digits. -/
def closeCite (lp : Bool) (ds : List Char) (s : List Char) : Option (Cite × List Char) :=
  if s.head? = some ']' then some (⟨lp, ds, false⟩, s.tail)
  else if s.head? = some ')' ∧ s.tail.head? = some ']' then some (⟨lp, ds, true⟩, s.tail.tail)
  else none

/-- Read the digits and the closing of a citation token, after the
bracket and the optional opening parenthesis. -/
def matchAfterOpen (lp : Bool) (r1 : List Char) : Option (Cite × List Char) :=
  let ds := r1.takeWhile isDig
  if ds = [] then none
  else closeCite lp ds (r1.dropWhile isDig)

/-- Try to match the source's citation pattern at the head of the string.
Returns the token and the rest of the string after it.  The pattern is
deterministic: the optional parenthesis is taken exactly when present
(a parenthesis is not a digit), the digit run is maximal (the characters
allowed after it are not digits), so greedy matching needs no
backtracking and this function is an exact model. -/
def matchCite (s : List Char) : Option (Cite × List Char) :=
  match s with
  | [] => none
  | c :: rest =>
    if c = '[' then
      if rest.head? = some '(' then matchAfterOpen true rest.tail
      else matchAfterOpen false rest
    else none

theorem mem_takeWhile {p : Char → Bool} : ∀ {l : List Char} {c : Char},
    c ∈ l.takeWhile p → p c = true := by
  intro l
  induction l with
  | nil => intro c hc; simp [List.takeWhile] at hc
  | cons a l ih =>
    intro c hc
    rw [List.takeWhile] at hc
    cases hp : p a with
    | true =>
      rw [hp] at hc
      rcases List.mem_cons.1 hc with h | h
      · subst h; exact hp
      · exact ih h
    | false => rw [hp] at hc; simp at hc

theorem takeWhile_append_of {p : Char → Bool} :
    ∀ {l q : List Char}, (∀ c ∈ l, p c = true) →
    (∀ x, q.head? = some x → p x = false) →
    (l ++ q).takeWhile p = l ∧ (l ++ q).dropWhile p = q := by
  intro l
  induction l with
  | nil =>
    intro q _ hq
    cases q with
    | nil => simp [List.takeWhile, List.dropWhile]
    | cons x q2 =>
      have := hq x (by simp)
      simp [List.takeWhile, List.dropWhile, this]
  | cons a l ih =>
    intro q hl hq
    have ha : p a = true := hl a (by simp)
    have h2 := ih (fun c hc => hl c (by simp [hc])) hq
    simp [List.takeWhile, List.dropWhile, ha, h2.1, h2.2]

theorem closeCite_form {lp : Bool} {ds s : List Char} {ct : Cite} {r : List Char}
    (h : closeCite lp ds s = some (ct, r)) :
    ct.lp = lp ∧ ct.ds = ds ∧ s = parenR ct.rp ++ ']' :: r := by
  rw [closeCite] at h
  by_cases h1 : s.head? = some ']'
  · rw [if_pos h1] at h
    obtain ⟨hc, hr⟩ := Prod.mk.injEq .. ▸ Option.some.inj h
    rw [← hc]
    cases s with
    | nil => simp at h1
    | cons a t => simp at h1; subst hr; simp [parenR, h1]
  · rw [if_neg h1] at h
    by_cases h2 : s.head? = some ')' ∧ s.tail.head? = some ']'
    · rw [if_pos h2] at h
      obtain ⟨hc, hr⟩ := Prod.mk.injEq .. ▸ Option.some.inj h
      rw [← hc]
      cases s with
      | nil => simp at h2
      | cons a t =>
        cases t with
        | nil => simp at h2
        | cons b t2 =>
          obtain ⟨h2a, h2b⟩ := h2
          simp at h2a h2b
          subst hr
          simp [parenR, h2a, h2b]
    · rw [if_neg h2] at h; simp at h

theorem matchAfterOpen_form {lp : Bool} {r1 : List Char} {ct : Cite} {r : List Char}
    (h : matchAfterOpen lp r1 = some (ct, r)) :
    ct.lp = lp ∧ ct.ds ≠ [] ∧ (∀ c ∈ ct.ds, isDig c = true) ∧
      r1 = ct.ds ++ (parenR ct.rp ++ ']' :: r) := by
  rw [matchAfterOpen] at h
  set ds := r1.takeWhile isDig with hds
  by_cases hemp : ds = []
  · rw [if_pos hemp] at h; simp at h
  · rw [if_neg hemp] at h
    obtain ⟨h1, h2, h3⟩ := closeCite_form h
    have hdig : ∀ c ∈ ds, isDig c = true := fun c hc => mem_takeWhile (hds ▸ hc)
    refine ⟨h1, h2 ▸ hemp, h2 ▸ hdig, ?_⟩
    rw [h2, ← h3, hds, List.takeWhile_append_dropWhile]

theorem matchCite_form {s : List Char} {ct : Cite} {r : List Char}
    (h : matchCite s = some (ct, r)) : s = ct.render ++ r ∧ WFC ct := by
  cases s with
  | nil => simp [matchCite] at h
  | cons c rest =>
    rw [matchCite] at h
    by_cases hc : c = '['
    · rw [if_pos hc] at h
      subst hc
      by_cases hp : rest.head? = some '('
      · rw [if_pos hp] at h
        obtain ⟨h1, h2, h3, h4⟩ := matchAfterOpen_form h
        have hrest : rest = '(' :: rest.tail := by
          cases rest with
          | nil => simp at hp
          | cons x t => simp at hp; simp [hp]
        refine ⟨?_, h2, h3⟩
        rw [Cite.render, Cite.core, hrest, h4]
        simp [parenL, h1, List.append_assoc]
      · rw [if_neg hp] at h
        obtain ⟨h1, h2, h3, h4⟩ := matchAfterOpen_form h
        refine ⟨?_, h2, h3⟩
        rw [Cite.render, Cite.core, h4]
        simp [parenL, h1, List.append_assoc]
    · rw [if_neg hc] at h; simp at h

theorem matchCite_render {ct : Cite} (hw : WFC ct) (r : List Char) :
    matchCite (ct.render ++ r) = some (ct, r) := by
  obtain ⟨hne, hdig⟩ := hw
  obtain ⟨lp, ds, rp⟩ := ct
  simp only [Cite.render, Cite.core] at *
  have hclose : ∀ q : List Char, (∀ x, q.head? = some x → isDig x = false) →
      q = parenR rp ++ ']' :: r → closeCite lp ds q = some (⟨lp, ds, rp⟩, r) := by
    intro q _ hq
    cases rp with
    | false => subst hq; simp [closeCite, parenR]
    | true => subst hq; simp [closeCite, parenR]
  have hq_head : ∀ x, (parenR rp ++ ']' :: r).head? = some x → isDig x = false := by
    intro x hx
    cases rp with
    | false => simp [parenR] at hx; subst hx; decide
    | true => simp [parenR] at hx; subst hx; decide
  have htw := @takeWhile_append_of isDig ds (parenR rp ++ ']' :: r) hdig hq_head
  cases lp with
  | false =>
    cases ds with
    | nil => exact absurd rfl hne
    | cons d ds2 =>
      have hd : isDig d = true := hdig d (by simp)
      have hdne : d ≠ '(' := isDig_ne_lparen hd
      have hshape : ('[' :: (parenL false ++ (d :: ds2) ++ parenR rp ++ [']'])) ++ r
          = '[' :: ((d :: ds2) ++ (parenR rp ++ ']' :: r)) := by simp [parenL, List.append_assoc]
      rw [hshape, matchCite]
      have hhd : ((d :: ds2) ++ (parenR rp ++ ']' :: r)).head? = some d := by simp
      rw [if_pos rfl, if_neg (by rw [hhd]; intro hcon; exact hdne (Option.some.inj hcon))]
      rw [matchAfterOpen]
      have h2 := @takeWhile_append_of isDig (d :: ds2) (parenR rp ++ ']' :: r)
        (by intro c hc; exact hdig c hc) hq_head
      simp only [h2.1, h2.2]
      rw [if_neg (by simp)]
      exact hclose _ hq_head rfl
  | true =>
    have hshape : ('[' :: (parenL true ++ ds ++ parenR rp ++ [']'])) ++ r
        = '[' :: ('(' :: (ds ++ (parenR rp ++ ']' :: r))) := by simp [parenL, List.append_assoc]
    rw [hshape, matchCite]
    rw [if_pos rfl, if_pos (by simp)]
    rw [matchAfterOpen]
    simp only [List.tail_cons, htw.1, htw.2]
    rw [if_neg hne]
    exact hclose _ hq_head rfl

theorem matchCite_length {s : List Char} {ct : Cite} {r : List Char}
    (h : matchCite s = some (ct, r)) : r.length < s.length := by
  obtain ⟨hs, _⟩ := matchCite_form h
  rw [hs]
  simp [Cite.render]
  omega

theorem matchCite_not_lbrack {c : Char} {cs : List Char} (h : c ≠ '[') :
    matchCite (c :: cs) = none := by
  rw [matchCite, if_neg h]

theorem core_no_bracket {ct : Cite} (hw : WFC ct) :
    ∀ c ∈ ct.core, c ≠ '[' ∧ c ≠ ']' := by
  intro c hc
  rw [Cite.core] at hc
  rcases List.mem_append.1 hc with h1 | h1
  · rcases List.mem_append.1 h1 with h2 | h2
    · cases hlp : ct.lp <;> rw [hlp] at h2 <;> simp [parenL] at h2
      subst h2; exact ⟨by decide, by decide⟩
    · have := hw.2 c h2
      exact ⟨isDig_ne_lbrack this, isDig_ne_rbrack this⟩
  · cases hrp : ct.rp <;> rw [hrp] at h1 <;> simp [parenR] at h1
    subst h1; exact ⟨by decide, by decide⟩

/-- Fuelled greedy left-to-right tokenisation of a string by the citation
pattern: where the pattern matches, a citation token is produced and the
scan continues after it; elsewhere one literal character is produced.
This is the common scan skeleton of re.findall and re.sub on the
source's patterns. -/
def tokensF : Nat → List Char → List Tok
  | 0, _ => []
  | _ + 1, [] => []
  | f + 1, c :: cs =>
    match matchCite (c :: cs) with
    | some (ct, r) => Tok.cite ct :: tokensF f r
    | none => Tok.lit c :: tokensF f cs

/-- Tokenisation of a string (fuel instantiated with the length). -/
def tokens (s : List Char) : List Tok := tokensF s.length s

theorem tokensF_succ_cite {f : Nat} {c : Char} {cs : List Char} {ct : Cite} {r : List Char}
    (h : matchCite (c :: cs) = some (ct, r)) :
    tokensF (f + 1) (c :: cs) = Tok.cite ct :: tokensF f r := by
  rw [tokensF, h]

theorem tokensF_succ_lit {f : Nat} {c : Char} {cs : List Char}
    (h : matchCite (c :: cs) = none) :
    tokensF (f + 1) (c :: cs) = Tok.lit c :: tokensF f cs := by
  rw [tokensF, h]

theorem tokensF_fuel : ∀ f1 f2 : Nat, ∀ s : List Char, s.length ≤ f1 → s.length ≤ f2 →
    tokensF f1 s = tokensF f2 s := by
  intro f1
  induction f1 with
  | zero =>
    intro f2 s hs _
    have : s = [] := List.length_eq_zero.1 (Nat.le_zero.1 hs)
    subst this
    cases f2 <;> rfl
  | succ f ih =>
    intro f2 s hs1 hs2
    cases s with
    | nil => cases f2 <;> rfl
    | cons c cs =>
      cases f2 with
      | zero => simp at hs2
      | succ f2 =>
        simp only [List.length_cons] at hs1 hs2
        cases hmc : matchCite (c :: cs) with
        | some pr =>
          obtain ⟨ct, r⟩ := pr
          have hlt := matchCite_length hmc
          simp only [List.length_cons] at hlt
          rw [tokensF_succ_cite hmc, tokensF_succ_cite hmc, ih f2 r (by omega) (by omega)]
        | none =>
          rw [tokensF_succ_lit hmc, tokensF_succ_lit hmc, ih f2 cs (by omega) (by omega)]

theorem tokens_nil : tokens [] = [] := rfl

theorem tokens_cons_cite {c : Char} {cs : List Char} {ct : Cite} {r : List Char}
    (h : matchCite (c :: cs) = some (ct, r)) :
    tokens (c :: cs) = Tok.cite ct :: tokens r := by
  have hlt := matchCite_length h
  simp only [List.length_cons] at hlt
  rw [tokens, List.length_cons, tokensF_succ_cite h, tokens,
    tokensF_fuel cs.length r.length r (by omega) (by omega)]

theorem tokens_cons_lit {c : Char} {cs : List Char}
    (h : matchCite (c :: cs) = none) :
    tokens (c :: cs) = Tok.lit c :: tokens cs := by
  rw [tokens, List.length_cons, tokensF_succ_lit h, tokens]

theorem untok_tokens_aux : ∀ f : Nat, ∀ s : List Char, s.length ≤ f →
    untok (tokens s) = s := by
  intro f
  induction f with
  | zero =>
    intro s hs
    have : s = [] := List.length_eq_zero.1 (Nat.le_zero.1 hs)
    subst this; rfl
  | succ f ih =>
    intro s hs
    cases s with
    | nil => rfl
    | cons c cs =>
      simp only [List.length_cons] at hs
      cases hmc : matchCite (c :: cs) with
      | some pr =>
        obtain ⟨ct, r⟩ := pr
        have hlt := matchCite_length hmc
        simp only [List.length_cons] at hlt
        obtain ⟨hform, _⟩ := matchCite_form hmc
        rw [tokens_cons_cite hmc, untok, Tok.render, ih r (by omega), ← hform]
      | none =>
        rw [tokens_cons_lit hmc, untok, Tok.render, ih cs (by omega)]
        rfl

/-- Tokenising and rendering back gives the original string. -/
theorem untok_tokens (s : List Char) : untok (tokens s) = s :=
  untok_tokens_aux s.length s (Nat.le_refl _)

theorem tokens_cites_wf_aux : ∀ f : Nat, ∀ s : List Char, s.length ≤ f →
    ∀ ct : Cite, Tok.cite ct ∈ tokens s → WFC ct := by
  intro f
  induction f with
  | zero =>
    intro s hs
    have : s = [] := List.length_eq_zero.1 (Nat.le_zero.1 hs)
    subst this; intro ct hct; simp [tokens, tokensF] at hct
  | succ f ih =>
    intro s hs ct hct
    cases s with
    | nil => simp [tokens, tokensF] at hct
    | cons c cs =>
      simp only [List.length_cons] at hs
      cases hmc : matchCite (c :: cs) with
      | some pr =>
        obtain ⟨ct2, r⟩ := pr
        have hlt := matchCite_length hmc
        simp only [List.length_cons] at hlt
        rw [tokens_cons_cite hmc] at hct
        rcases List.mem_cons.1 hct with h | h
        · have hcc : ct = ct2 := Tok.cite.inj h
          rw [hcc]
          exact (matchCite_form hmc).2
        · exact ih r (by omega) ct h
      | none =>
        rw [tokens_cons_lit hmc] at hct
        rcases List.mem_cons.1 hct with h | h
        · simp at h
        · exact ih cs (by omega) ct h

/-- Every citation token the scanner produces is well formed. -/
theorem tokens_cites_wf {s : List Char} {ct : Cite} (h : Tok.cite ct ∈ tokens s) :
    WFC ct :=
  tokens_cites_wf_aux s.length s (Nat.le_refl _) ct h

/-- Fuelled model of re.findall with the source's marker pattern: scan
left to right, and at each match collect the captured digit group and
continue after the match; at a mismatch move on by one character. -/
def findallCitesF : Nat → List Char → List (List Char)
  | 0, _ => []
  | _ + 1, [] => []
  | f + 1, c :: cs =>
    match matchCite (c :: cs) with
    | some (ct, r) => ct.ds :: findallCitesF f r
    | none => findallCitesF f cs

/-- The digit groups of all citation markers found in a string, in scan
order: the model of re.findall of the marker pattern in
renumber_citations (src/app.py line 91). -/
def findallCites (s : List Char) : List (List Char) := findallCitesF s.length s

theorem findallCitesF_succ_cite {f : Nat} {c : Char} {cs : List Char} {ct : Cite} {r : List Char}
    (h : matchCite (c :: cs) = some (ct, r)) :
    findallCitesF (f + 1) (c :: cs) = ct.ds :: findallCitesF f r := by
  rw [findallCitesF, h]

theorem findallCitesF_succ_lit {f : Nat} {c : Char} {cs : List Char}
    (h : matchCite (c :: cs) = none) :
    findallCitesF (f + 1) (c :: cs) = findallCitesF f cs := by
  rw [findallCitesF, h]

/-- The digit group of a citation token, nothing for a literal. -/
def Tok.citeDs : Tok → Option (List Char)
  | .lit _ => none
  | .cite ct => some ct.ds

theorem findallCitesF_fuel : ∀ f1 f2 : Nat, ∀ s : List Char, s.length ≤ f1 → s.length ≤ f2 →
    findallCitesF f1 s = findallCitesF f2 s := by
  intro f1
  induction f1 with
  | zero =>
    intro f2 s hs _
    have : s = [] := List.length_eq_zero.1 (Nat.le_zero.1 hs)
    subst this
    cases f2 <;> rfl
  | succ f ih =>
    intro f2 s hs1 hs2
    cases s with
    | nil => cases f2 <;> rfl
    | cons c cs =>
      cases f2 with
      | zero => simp at hs2
      | succ f2 =>
        simp only [List.length_cons] at hs1 hs2
        cases hmc : matchCite (c :: cs) with
        | some pr =>
          obtain ⟨ct, r⟩ := pr
          have hlt := matchCite_length hmc
          simp only [List.length_cons] at hlt
          rw [findallCitesF_succ_cite hmc, findallCitesF_succ_cite hmc,
            ih f2 r (by omega) (by omega)]
        | none =>
          rw [findallCitesF_succ_lit hmc, findallCitesF_succ_lit hmc,
            ih f2 cs (by omega) (by omega)]

theorem findallCites_cons_cite {c : Char} {cs : List Char} {ct : Cite} {r : List Char}
    (h : matchCite (c :: cs) = some (ct, r)) :
    findallCites (c :: cs) = ct.ds :: findallCites r := by
  have hlt := matchCite_length h
  simp only [List.length_cons] at hlt
  rw [findallCites, List.length_cons, findallCitesF_succ_cite h, findallCites,
    findallCitesF_fuel cs.length r.length r (by omega) (by omega)]

theorem findallCites_cons_lit {c : Char} {cs : List Char}
    (h : matchCite (c :: cs) = none) :
    findallCites (c :: cs) = findallCites cs := by
  rw [findallCites, List.length_cons, findallCitesF_succ_lit h, findallCites]

theorem findallCites_eq_tokens_aux : ∀ f : Nat, ∀ s : List Char, s.length ≤ f →
    findallCites s = (tokens s).filterMap Tok.citeDs := by
  intro f
  induction f with
  | zero =>
    intro s hs
    have : s = [] := List.length_eq_zero.1 (Nat.le_zero.1 hs)
    subst this; rfl
  | succ f ih =>
    intro s hs
    cases s with
    | nil => rfl
    | cons c cs =>
      simp only [List.length_cons] at hs
      cases hmc : matchCite (c :: cs) with
      | some pr =>
        obtain ⟨ct, r⟩ := pr
        have hlt := matchCite_length hmc
        simp only [List.length_cons] at hlt
        rw [findallCites_cons_cite hmc, tokens_cons_cite hmc, List.filterMap_cons]
        simp only [Tok.citeDs]
        rw [ih r (by omega)]
      | none =>
        rw [findallCites_cons_lit hmc, tokens_cons_lit hmc, List.filterMap_cons]
        simp only [Tok.citeDs]
        rw [ih cs (by omega)]

/-- The marker scanner agrees with the tokenisation: it lists exactly the
digit groups of the citation tokens, in order. -/
theorem findallCites_eq_tokens (s : List Char) :
    findallCites s = (tokens s).filterMap Tok.citeDs :=
  findallCites_eq_tokens_aux s.length s (Nat.le_refl _)

/-- Try to match the specific substitution pattern of src/app.py line 94
(bracket, optional open paren, the exact digit string of one number,
optional close paren, bracket) at the head of the string.  Because the
general marker pattern takes a maximal digit run and the specific
pattern requires a closing character right after its literal digits,
the specific pattern matches exactly where the general one matches with
that digit group, and with the same extent; so it is defined through
matchCite. -/
def matchCiteNum (digs : List Char) (s : List Char) : Option (List Char) :=
  match matchCite s with
  | some (ct, r) => if ct.ds = digs then some r else none
  | none => none

/-- Fuelled model of re.sub with the substitution pattern: scan left to
right; at a match emit the replacement and continue after the match
(the replacement text is never rescanned); at a mismatch emit one
character and move on. -/
def replaceCiteF (digs rep : List Char) : Nat → List Char → List Char
  | 0, s => s
  | _ + 1, [] => []
  | f + 1, c :: cs =>
    match matchCiteNum digs (c :: cs) with
    | some r => rep ++ replaceCiteF digs rep f r
    | none => c :: replaceCiteF digs rep f cs

/-- The model of re.sub of the substitution pattern for one number:
replace every marker for digit string digs by rep. -/
def replaceCite (digs rep : List Char) (s : List Char) : List Char :=
  replaceCiteF digs rep s.length s

theorem matchCiteNum_eq_some {digs s r : List Char} :
    matchCiteNum digs s = some r ↔ ∃ ct, matchCite s = some (ct, r) ∧ ct.ds = digs := by
  rw [matchCiteNum]
  cases hmc : matchCite s with
  | none => simp
  | some pr =>
    obtain ⟨ct, r2⟩ := pr
    by_cases hd : ct.ds = digs
    · simp [hd]
      constructor
      · intro h; exact ⟨ct, ⟨rfl, h⟩, hd⟩
      · rintro ⟨ct2, ⟨h1, h2⟩, h3⟩; exact h2
    · simp only [Option.some.injEq, Prod.mk.injEq]
      rw [if_neg hd]
      constructor
      · intro h; simp at h
      · rintro ⟨ct2, ⟨h1, h2⟩, h3⟩; subst h1; exact absurd h3 hd

theorem matchCiteNum_eq_none_of_ne {digs s : List Char} {ct : Cite} {r : List Char}
    (hmc : matchCite s = some (ct, r)) (hd : ct.ds ≠ digs) :
    matchCiteNum digs s = none := by
  rw [matchCiteNum, hmc]
  simp [hd]

theorem matchCiteNum_eq_none_of_nomatch {digs s : List Char}
    (hmc : matchCite s = none) : matchCiteNum digs s = none := by
  rw [matchCiteNum, hmc]

theorem matchCiteNum_length {digs s : List Char} {r : List Char}
    (h : matchCiteNum digs s = some r) : r.length < s.length := by
  obtain ⟨ct, hmc, _⟩ := matchCiteNum_eq_some.1 h
  exact matchCite_length hmc

theorem replaceCiteF_succ_match {digs rep : List Char} {f : Nat} {c : Char} {cs r : List Char}
    (h : matchCiteNum digs (c :: cs) = some r) :
    replaceCiteF digs rep (f + 1) (c :: cs) = rep ++ replaceCiteF digs rep f r := by
  rw [replaceCiteF, h]

theorem replaceCiteF_succ_skip {digs rep : List Char} {f : Nat} {c : Char} {cs : List Char}
    (h : matchCiteNum digs (c :: cs) = none) :
    replaceCiteF digs rep (f + 1) (c :: cs) = c :: replaceCiteF digs rep f cs := by
  rw [replaceCiteF, h]

theorem replaceCiteF_fuel (digs rep : List Char) :
    ∀ f1 f2 : Nat, ∀ s : List Char, s.length ≤ f1 → s.length ≤ f2 →
    replaceCiteF digs rep f1 s = replaceCiteF digs rep f2 s := by
  intro f1
  induction f1 with
  | zero =>
    intro f2 s hs _
    have : s = [] := List.length_eq_zero.1 (Nat.le_zero.1 hs)
    subst this
    cases f2 <;> rfl
  | succ f ih =>
    intro f2 s hs1 hs2
    cases s with
    | nil => cases f2 <;> rfl
    | cons c cs =>
      cases f2 with
      | zero => simp at hs2
      | succ f2 =>
        simp only [List.length_cons] at hs1 hs2
        cases hmc : matchCiteNum digs (c :: cs) with
        | some r =>
          have hlt := matchCiteNum_length hmc
          simp only [List.length_cons] at hlt
          rw [replaceCiteF_succ_match hmc, replaceCiteF_succ_match hmc,
            ih f2 r (by omega) (by omega)]
        | none =>
          rw [replaceCiteF_succ_skip hmc, replaceCiteF_succ_skip hmc,
            ih f2 cs (by omega) (by omega)]

theorem replaceCite_cons_match {digs rep : List Char} {c : Char} {cs r : List Char}
    (h : matchCiteNum digs (c :: cs) = some r) :
    replaceCite digs rep (c :: cs) = rep ++ replaceCite digs rep r := by
  have hlt := matchCiteNum_length h
  simp only [List.length_cons] at hlt
  rw [replaceCite, List.length_cons, replaceCiteF_succ_match h, replaceCite,
    replaceCiteF_fuel digs rep cs.length r.length r (by omega) (by omega)]

theorem replaceCite_cons_skip {digs rep : List Char} {c : Char} {cs : List Char}
    (h : matchCiteNum digs (c :: cs) = none) :
    replaceCite digs rep (c :: cs) = c :: replaceCite digs rep cs := by
  rw [replaceCite, List.length_cons, replaceCiteF_succ_skip h, replaceCite]

theorem replaceCite_nil (digs rep : List Char) : replaceCite digs rep [] = [] := rfl

/-- Walking over characters none of which opens a bracket leaves them
unchanged under substitution. -/
theorem replaceCite_walk {digs rep : List Char} :
    ∀ {l : List Char}, (∀ a ∈ l, a ≠ '[') →
    ∀ r : List Char, replaceCite digs rep (l ++ r) = l ++ replaceCite digs rep r := by
  intro l
  induction l with
  | nil => intro _ r; simp
  | cons a l ih =>
    intro hl r
    have ha : a ≠ '[' := hl a (by simp)
    have hnone : matchCiteNum digs (a :: (l ++ r)) = none := by
      rw [matchCiteNum, matchCite_not_lbrack ha]
    rw [List.cons_append, replaceCite_cons_skip hnone, ih (fun x hx => hl x (by simp [hx])) r]
    simp

/-- The effect of one substitution pass on one token: a citation token
whose digit group is exactly the pattern's digit string becomes the
plain replacement marker; everything else is untouched. -/
def replTok (digs nds : List Char) : Tok → Tok
  | .lit c => .lit c
  | .cite ct => if ct.ds = digs then .cite ⟨false, nds, false⟩ else .cite ct

theorem replaceCite_eq_tokens_aux (digs nds : List Char) :
    ∀ f : Nat, ∀ s : List Char, s.length ≤ f →
    replaceCite digs ('[' :: (nds ++ [']'])) s = untok ((tokens s).map (replTok digs nds)) := by
  intro f
  induction f with
  | zero =>
    intro s hs
    have : s = [] := List.length_eq_zero.1 (Nat.le_zero.1 hs)
    subst this; rfl
  | succ f ih =>
    intro s hs
    cases s with
    | nil => rfl
    | cons c cs =>
      simp only [List.length_cons] at hs
      cases hmc : matchCite (c :: cs) with
      | some pr =>
        obtain ⟨ct, r⟩ := pr
        have hlt := matchCite_length hmc
        simp only [List.length_cons] at hlt
        obtain ⟨hform, hwf⟩ := matchCite_form hmc
        rw [tokens_cons_cite hmc, List.map_cons]
        by_cases hd : ct.ds = digs
        · have hnum : matchCiteNum digs (c :: cs) = some r :=
            matchCiteNum_eq_some.2 ⟨ct, hmc, hd⟩
          rw [replaceCite_cons_match hnum, ih r (by omega), untok]
          simp [replTok, hd, Tok.render, Cite.render, Cite.core, parenL, parenR]
        · have hnum : matchCiteNum digs (c :: cs) = none :=
            matchCiteNum_eq_none_of_ne hmc hd
          have hc : c = '[' := by
            have : c :: cs = ct.render ++ r := hform
            rw [Cite.render] at this
            exact (List.cons.injEq .. ▸ this).1
          have hcs : cs = ct.core ++ ']' :: r := by
            have h3 := hform
            rw [Cite.render, List.cons_append] at h3
            have h4 := (List.cons.inj h3).2
            rw [h4, List.append_assoc, List.singleton_append]
          have hnum2 : matchCiteNum digs (']' :: r) = none :=
            matchCiteNum_eq_none_of_nomatch (matchCite_not_lbrack (by decide))
          rw [replaceCite_cons_skip hnum, hcs]
          rw [replaceCite_walk (fun a haa => (core_no_bracket hwf a haa).1) (']' :: r)]
          rw [replaceCite_cons_skip hnum2]
          rw [ih r (by omega), untok]
          simp [replTok, hd, Tok.render, Cite.render, Cite.core, hc, List.append_assoc]
      | none =>
        have hnum : matchCiteNum digs (c :: cs) = none :=
          matchCiteNum_eq_none_of_nomatch hmc
        rw [tokens_cons_lit hmc, List.map_cons, replaceCite_cons_skip hnum, ih cs (by omega)]
        rfl

/-- One substitution pass acts tokenwise: re.sub for the pattern of a
digit string digs with replacement marker for nds maps each citation
token with that digit group to the plain replacement marker and leaves
all other characters alone. -/
theorem replaceCite_eq_tokens (digs nds : List Char) (s : List Char) :
    replaceCite digs ('[' :: (nds ++ [']'])) s = untok ((tokens s).map (replTok digs nds)) :=
  replaceCite_eq_tokens_aux digs nds s.length s (Nat.le_refl _)

/-- Apply a transformation to every citation token, leaving literal
characters alone. -/
def mapCites (g : Cite → Cite) : Tok → Tok
  | .lit c => .lit c
  | .cite ct => .cite (g ct)

theorem untok_map_cons (g : Cite → Cite) (t : Tok) (ts : List Tok) :
    untok ((t :: ts).map (mapCites g)) = (mapCites g t).render ++ untok (ts.map (mapCites g)) := by
  rw [List.map_cons, untok]

theorem split_core : ∀ core L X r : List Char, '[' ∉ core → ']' ∉ core →
    L ++ '[' :: X = core ++ ']' :: r →
    ∃ L2, L = core ++ ']' :: L2 ∧ r = L2 ++ '[' :: X := by
  intro core
  induction core with
  | nil =>
    intro L X r _ _ h
    cases L with
    | nil => simp at h
    | cons b L1 =>
      rw [List.cons_append] at h
      obtain ⟨hb, h2⟩ := List.cons.inj h
      subst hb
      exact ⟨L1, by simp, h2.symm⟩
  | cons a core ih =>
    intro L X r hnb1 hnb2 h
    simp only [List.mem_cons] at hnb1 hnb2
    cases L with
    | nil =>
      simp only [List.nil_append, List.cons_append] at h
      obtain ⟨hb, _⟩ := List.cons.inj h
      exact absurd hb.symm (fun he => hnb1 (Or.inl he.symm))
    | cons b L1 =>
      rw [List.cons_append, List.cons_append] at h
      obtain ⟨hb, h2⟩ := List.cons.inj h
      subst hb
      obtain ⟨L2, hL, hr⟩ := ih L1 X r (fun he => hnb1 (Or.inr he)) (fun he => hnb2 (Or.inr he)) h2
      exact ⟨L2, by rw [List.cons_append, hL], hr⟩

theorem untok_agree (g : Cite → Cite) : ∀ ts : List Tok,
    ∃ q u v : List Char, untok ts = q ++ u ∧ untok (ts.map (mapCites g)) = q ++ v ∧
      ((u = [] ∧ v = []) ∨ (∃ a b, u = '[' :: a ∧ v = '[' :: b)) := by
  intro ts
  induction ts with
  | nil => exact ⟨[], [], [], rfl, rfl, Or.inl ⟨rfl, rfl⟩⟩
  | cons t ts ih =>
    cases t with
    | lit c =>
      obtain ⟨q, u, v, h1, h2, h3⟩ := ih
      refine ⟨c :: q, u, v, ?_, ?_, h3⟩
      · rw [untok, Tok.render, h1]; rfl
      · rw [untok_map_cons]
        show (Tok.lit c).render ++ untok (ts.map (mapCites g)) = (c :: q) ++ v
        rw [Tok.render, h2]; rfl
    | cite ct =>
      refine ⟨[], untok (Tok.cite ct :: ts), untok ((Tok.cite ct :: ts).map (mapCites g)),
        by simp, by simp, Or.inr ?_⟩
      refine ⟨ct.core ++ [']'] ++ untok ts,
        (g ct).core ++ [']'] ++ untok (ts.map (mapCites g)), ?_, ?_⟩
      · rw [untok, Tok.render, Cite.render]
        simp [List.append_assoc]
      · rw [untok_map_cons]
        show ('[' :: ((g ct).core ++ [']'])) ++ untok (ts.map (mapCites g)) = _
        simp [List.append_assoc]

theorem matchCite_none_transfer {c : Char} {q u v : List Char}
    (hshape : (u = [] ∧ v = []) ∨ (∃ a b, u = '[' :: a ∧ v = '[' :: b))
    (hnone : matchCite (c :: (q ++ u)) = none) :
    matchCite (c :: (q ++ v)) = none := by
  by_cases hc : c = '['
  · subst hc
    rcases hshape with ⟨hu, hv⟩ | ⟨a, b, hu, hv⟩
    · subst hu; subst hv; exact hnone
    · subst hu; subst hv
      cases hmv : matchCite ('[' :: (q ++ '[' :: b)) with
      | none => rfl
      | some pr =>
        obtain ⟨ct, r⟩ := pr
        obtain ⟨hform, hwf⟩ := matchCite_form hmv
        rw [Cite.render, List.cons_append] at hform
        have heq : q ++ '[' :: b = (ct.core ++ [']']) ++ r := by
          have := (List.cons.inj hform).2
          rw [this, List.append_assoc, List.singleton_append]
        rw [List.append_assoc, List.singleton_append] at heq
        have hnb := core_no_bracket hwf
        obtain ⟨L2, hL, hr⟩ := split_core ct.core q b r
          (fun hm => (hnb '[' hm).1 rfl) (fun hm => (hnb ']' hm).2 rfl) heq
        have : matchCite ('[' :: (q ++ '[' :: a)) = some (ct, L2 ++ '[' :: a) := by
          have hst : ('[' : Char) :: (q ++ '[' :: a) = ct.render ++ (L2 ++ '[' :: a) := by
            rw [hL, Cite.render]
            simp [List.append_assoc]
          rw [hst]
          exact matchCite_render hwf _
        rw [this] at hnone
        exact absurd hnone (by simp)
  · exact matchCite_not_lbrack hc

theorem tokens_eq_cite {s : List Char} {ct : Cite} {ts2 : List Tok}
    (h : tokens s = Tok.cite ct :: ts2) :
    matchCite s = some (ct, untok ts2) ∧ tokens (untok ts2) = ts2 := by
  cases s with
  | nil => rw [tokens_nil] at h; exact absurd h (by simp)
  | cons c cs =>
    cases hmc : matchCite (c :: cs) with
    | none =>
      rw [tokens_cons_lit hmc] at h
      exact absurd (List.cons.inj h).1 (by simp)
    | some pr =>
      obtain ⟨ct0, r0⟩ := pr
      rw [tokens_cons_cite hmc] at h
      obtain ⟨h1, h2⟩ := List.cons.inj h
      have hct : ct0 = ct := Tok.cite.inj h1
      subst hct
      have hr0 : untok ts2 = r0 := by rw [← h2, untok_tokens]
      constructor
      · rw [hr0]
      · rw [hr0]; exact h2

theorem tokens_eq_lit {s : List Char} {c : Char} {ts2 : List Tok}
    (h : tokens s = Tok.lit c :: ts2) :
    s = c :: untok ts2 ∧ matchCite s = none ∧ tokens (untok ts2) = ts2 := by
  cases s with
  | nil => rw [tokens_nil] at h; exact absurd h (by simp)
  | cons c0 cs =>
    cases hmc : matchCite (c0 :: cs) with
    | none =>
      rw [tokens_cons_lit hmc] at h
      obtain ⟨h1, h2⟩ := List.cons.inj h
      have hc : c0 = c := Tok.lit.inj h1
      subst hc
      have hcs : untok ts2 = cs := by rw [← h2, untok_tokens]
      refine ⟨by rw [hcs], rfl, by rw [hcs]; exact h2⟩
    | some pr =>
      obtain ⟨ct0, r0⟩ := pr
      rw [tokens_cons_cite hmc] at h
      exact absurd (List.cons.inj h).1 (by simp)

/-- Retokenisation: transforming the citation tokens of a canonically
tokenised string (keeping them well formed) yields a string that
tokenises exactly into the transformed tokens.  This is what makes the
source's sequence of substitution passes composable tokenwise. -/
theorem retok (g : Cite → Cite) (hg : ∀ ct, WFC ct → WFC (g ct)) :
    ∀ ts : List Tok, tokens (untok ts) = ts →
    tokens (untok (ts.map (mapCites g))) = ts.map (mapCites g) := by
  intro ts
  induction ts with
  | nil => intro _; rfl
  | cons t ts ih =>
    intro h
    cases t with
    | cite ct =>
      rw [untok, Tok.render] at h
      obtain ⟨hmc, hts⟩ := tokens_eq_cite h
      have hwf : WFC ct := (matchCite_form hmc).2
      have hih := ih hts
      rw [untok_map_cons]
      show tokens ((mapCites g (Tok.cite ct)).render ++ untok (ts.map (mapCites g)))
        = mapCites g (Tok.cite ct) :: ts.map (mapCites g)
      rw [mapCites, Tok.render]
      have hwf2 : WFC (g ct) := hg ct hwf
      have hmc2 : matchCite ((g ct).render ++ untok (ts.map (mapCites g)))
          = some (g ct, untok (ts.map (mapCites g))) := matchCite_render hwf2 _
      have hcons2 : (g ct).render ++ untok (ts.map (mapCites g))
          = '[' :: ((g ct).core ++ [']'] ++ untok (ts.map (mapCites g))) := by
        rw [Cite.render]
        simp [List.append_assoc]
      rw [hcons2] at hmc2 ⊢
      rw [tokens_cons_cite hmc2, hih]
    | lit c =>
      rw [untok, Tok.render, List.singleton_append] at h
      obtain ⟨_, hmc, hts⟩ := tokens_eq_lit h
      have hih := ih hts
      obtain ⟨q, u, v, h1, h2, h3⟩ := untok_agree g ts
      have hmc2 : matchCite (c :: untok (ts.map (mapCites g))) = none := by
        rw [h2]
        exact matchCite_none_transfer h3 (by rw [← h1]; exact hmc)
      rw [untok_map_cons]
      show tokens ((Tok.lit c).render ++ untok (ts.map (mapCites g))) = _
      rw [Tok.render, List.singleton_append, tokens_cons_lit hmc2, hih]
      rfl

/-- Insert a number into an ascending duplicate-free list, keeping it
ascending and duplicate free. -/
def insertSD (n : Nat) : List Nat → List Nat
  | [] => [n]
  | m :: ms =>
    if n < m then n :: m :: ms
    else if n = m then m :: ms
    else m :: insertSD n ms

/-- The model of Python sorted(set(xs)): the distinct values of the
list in ascending order. -/
def sortDedup (l : List Nat) : List Nat := l.foldr insertSD []

theorem mem_insertSD {n x : Nat} : ∀ {l : List Nat}, x ∈ insertSD n l ↔ x = n ∨ x ∈ l := by
  intro l
  induction l with
  | nil => simp [insertSD]
  | cons m ms ih =>
    rw [insertSD]
    by_cases h1 : n < m
    · rw [if_pos h1]; simp
    · rw [if_neg h1]
      by_cases h2 : n = m
      · rw [if_pos h2]; subst h2; simp
      · rw [if_neg h2]
        simp only [List.mem_cons, ih]
        constructor
        · rintro (h | h | h)
          · exact Or.inr (Or.inl h)
          · exact Or.inl h
          · exact Or.inr (Or.inr h)
        · rintro (h | h | h)
          · exact Or.inr (Or.inl h)
          · exact Or.inl h
          · exact Or.inr (Or.inr h)

theorem pairwise_insertSD {n : Nat} : ∀ {l : List Nat},
    l.Pairwise (· < ·) → (insertSD n l).Pairwise (· < ·) := by
  intro l
  induction l with
  | nil => intro _; simp [insertSD]
  | cons m ms ih =>
    intro hp
    obtain ⟨hall, htail⟩ := List.pairwise_cons.1 hp
    rw [insertSD]
    by_cases h1 : n < m
    · rw [if_pos h1]
      exact List.pairwise_cons.2 ⟨by
        intro b hb
        rcases List.mem_cons.1 hb with h | h
        · omega
        · have := hall b h; omega, hp⟩
    · rw [if_neg h1]
      by_cases h2 : n = m
      · rw [if_pos h2]; exact hp
      · rw [if_neg h2]
        refine List.pairwise_cons.2 ⟨?_, ih htail⟩
        intro b hb
        rcases mem_insertSD.1 hb with h | h
        · subst h; omega
        · exact hall b h

theorem sortDedup_pairwise (l : List Nat) : (sortDedup l).Pairwise (· < ·) := by
  rw [sortDedup]
  induction l with
  | nil => simp
  | cons a l ih => exact pairwise_insertSD ih

theorem mem_sortDedup {x : Nat} {l : List Nat} : x ∈ sortDedup l ↔ x ∈ l := by
  rw [sortDedup]
  induction l with
  | nil => simp
  | cons a l ih =>
    rw [List.foldr_cons, mem_insertSD, ih]
    simp

/-- The model of the dict comprehension on src/app.py line 92, with
enumerate(citations, 1): the association list of pairs (old, new) in
iteration order, new counting up from the given start.  The keys are
distinct (citations is duplicate free), so the dict is exactly this
association list. -/
def enumMap (n0 : Nat) : List Nat → List (Nat × Nat)
  | [] => []
  | o :: os => (o, n0) :: enumMap (n0 + 1) os

theorem enumMap_map_fst : ∀ (n0 : Nat) (l : List Nat), (enumMap n0 l).map Prod.fst = l := by
  intro n0 l
  induction l generalizing n0 with
  | nil => rfl
  | cons o os ih => rw [enumMap, List.map_cons, ih (n0 + 1)]

theorem enumMap_map_snd : ∀ (n0 : Nat) (l : List Nat),
    (enumMap n0 l).map Prod.snd = List.range' n0 l.length := by
  intro n0 l
  induction l generalizing n0 with
  | nil => rfl
  | cons o os ih =>
    rw [enumMap, List.map_cons, ih (n0 + 1), List.length_cons, List.range'_succ]

/-- Model of renumber_citations (src/app.py lines 89-95).
citations = sorted(set(int(g) for g in re.findall(pattern, response)));
citation_map = the dict mapping each old number to its 1-based rank;
then one re.sub pass per (old, new) item, in dict insertion order
(ascending old), rewriting every marker for old into the plain marker
for new.  Returns the rewritten text and the citation map as an
association list in iteration order. -/
def renumber_citations (response : List Char) : List Char × List (Nat × Nat) :=
  let citations : List Nat := sortDedup ((findallCites response).map digitsVal)
  let citation_map : List (Nat × Nat) := enumMap 1 citations
  (citation_map.foldl
    (fun acc p => replaceCite (natRepr p.1) ('[' :: (natRepr p.2 ++ [']'])) acc) response,
   citation_map)

/-- Model of a Python list indexing expression lst i on a list of
strings with an int index: negative indices count from the end; an
index out of range raises IndexError, modelled as none. -/
def pyIdx (l : List String) (i : Int) : Option String :=
  if i < 0 then
    if 0 ≤ (l.length : Int) + i then l.get? ((l.length : Int) + i).toNat else none
  else l.get? i.toNat

/-- The loop body of generate_citation_links (src/app.py lines 99-102):
for each (old, new) item of the citation map in order, look up
urls old-1 with Python indexing and emit the line "new. url".
none models an uncaught IndexError escaping the loop. -/
def citedLinks : List (Nat × Nat) → List String → Option (List String)
  | [], _ => some []
  | (old, new) :: rest, urls =>
    match pyIdx urls ((old : Int) - 1) with
    | none => none
    | some url =>
      match citedLinks rest urls with
      | none => none
      | some ls => some ((String.mk (natRepr new) ++ ". " ++ url) :: ls)

/-- Model of generate_citation_links (src/app.py lines 97-103): the
lines joined with newlines, or a failure if any lookup raises. -/
def generate_citation_links (citation_map : List (Nat × Nat)) (urls : List String) :
    Option String :=
  (citedLinks citation_map urls).map (fun ls => String.intercalate "\n" ls)

/-- The reconciliation step as composed in save_markdown (src/app.py
lines 107-108): renumber the citations in the answer, then build the
source-link block against the collected urls (the keys of search_dic in
insertion order).  Returns the renumbered answer, the citation map and
the link block, or a failure if link generation raises. -/
def reconcile (response : String) (urls : List String) :
    Option (String × List (Nat × Nat) × String) :=
  (generate_citation_links (renumber_citations response.data).2 urls).map
    (fun block => (String.mk (renumber_citations response.data).1,
      (renumber_citations response.data).2, block))

/-- The citation-token transformation of one substitution pass. -/
def citeRepl (digs nds : List Char) (ct : Cite) : Cite :=
  if ct.ds = digs then ⟨false, nds, false⟩ else ct

theorem replTok_eq_mapCites (digs nds : List Char) (t : Tok) :
    replTok digs nds t = mapCites (citeRepl digs nds) t := by
  cases t with
  | lit c => rfl
  | cite ct =>
    rw [replTok, mapCites, citeRepl]
    by_cases h : ct.ds = digs
    · rw [if_pos h, if_pos h]
    · rw [if_neg h, if_neg h]

theorem citeRepl_wf {digs : List Char} {n : Nat} {ct : Cite} (h : WFC ct) :
    WFC (citeRepl digs (natRepr n) ct) := by
  rw [citeRepl]
  by_cases hd : ct.ds = digs
  · rw [if_pos hd]
    exact ⟨natRepr_ne_nil n, natRepr_digits n⟩
  · rw [if_neg hd]; exact h

/-- The combined effect of a sequence of substitution passes on one
token, passes applied left to right. -/
def replAllTok (P : List (Nat × Nat)) (t : Tok) : Tok :=
  P.foldl (fun t2 p => replTok (natRepr p.1) (natRepr p.2) t2) t

theorem replAllTok_nil (t : Tok) : replAllTok [] t = t := rfl

theorem replAllTok_cons (p : Nat × Nat) (P : List (Nat × Nat)) (t : Tok) :
    replAllTok (p :: P) t = replAllTok P (replTok (natRepr p.1) (natRepr p.2) t) := rfl

theorem replAllTok_lit (P : List (Nat × Nat)) (c : Char) :
    replAllTok P (Tok.lit c) = Tok.lit c := by
  induction P with
  | nil => rfl
  | cons p P ih => rw [replAllTok_cons, replTok, ih]

/-- The sequence of re.sub passes of renumber_citations acts tokenwise:
the final text is the rendering of the scanner's tokens of the original
text, each token transformed by the combined tokenwise substitution. -/
theorem fold_replace_tokens (P : List (Nat × Nat)) : ∀ s : List Char,
    P.foldl (fun acc p => replaceCite (natRepr p.1) ('[' :: (natRepr p.2 ++ [']'])) acc) s
      = untok ((tokens s).map (replAllTok P)) ∧
    tokens (P.foldl
        (fun acc p => replaceCite (natRepr p.1) ('[' :: (natRepr p.2 ++ [']'])) acc) s)
      = (tokens s).map (replAllTok P) := by
  induction P with
  | nil =>
    intro s
    constructor
    · rw [List.foldl_nil]
      have : (tokens s).map (replAllTok []) = tokens s := by
        rw [show replAllTok [] = id from rfl, List.map_id]
      rw [this, untok_tokens]
    · rw [List.foldl_nil]
      have : (tokens s).map (replAllTok []) = tokens s := by
        rw [show replAllTok [] = id from rfl, List.map_id]
      rw [this]
  | cons p P ih =>
    intro s
    rw [List.foldl_cons]
    set s1 := replaceCite (natRepr p.1) ('[' :: (natRepr p.2 ++ [']'])) s with hs1
    have hL2 : s1 = untok ((tokens s).map (replTok (natRepr p.1) (natRepr p.2))) := by
      rw [hs1, replaceCite_eq_tokens]
    have htok1 : tokens s1 = (tokens s).map (replTok (natRepr p.1) (natRepr p.2)) := by
      have hmap : (tokens s).map (replTok (natRepr p.1) (natRepr p.2))
          = (tokens s).map (mapCites (citeRepl (natRepr p.1) (natRepr p.2))) :=
        List.map_congr_left (fun t _ => replTok_eq_mapCites _ _ t)
      rw [hL2, hmap]
      exact retok _ (fun ct hw => citeRepl_wf hw) (tokens s) (by rw [untok_tokens])
    obtain ⟨ih1, ih2⟩ := ih s1
    have hcomp : (tokens s1).map (replAllTok P)
        = (tokens s).map (replAllTok (p :: P)) := by
      rw [htok1, List.map_map]
      exact List.map_congr_left (fun t _ => (replAllTok_cons p P t).symm)
    exact ⟨by rw [ih1, hcomp], by rw [ih2, hcomp]⟩

/-- Lookup in the citation map: the model of reading the dict built on
src/app.py line 92 (identity outside its domain, which never occurs in
the uses below). -/
def applyMap (m : List (Nat × Nat)) (v : Nat) : Nat :=
  match m.find? (fun p => p.1 == v) with
  | some p => p.2
  | none => v

theorem applyMap_cons_eq (v n : Nat) (rest : List (Nat × Nat)) :
    applyMap ((v, n) :: rest) v = n := by
  rw [applyMap, List.find?_cons_of_pos _ (by simp)]

theorem applyMap_cons_ne {k v : Nat} (n : Nat) (rest : List (Nat × Nat)) (h : k ≠ v) :
    applyMap ((k, n) :: rest) v = applyMap rest v := by
  rw [applyMap, List.find?_cons_of_neg _ (by simp [h]), applyMap]

theorem replAllTok_unch : ∀ (P : List (Nat × Nat)) (d : Cite),
    (∀ p ∈ P, natRepr p.1 ≠ d.ds) → replAllTok P (Tok.cite d) = Tok.cite d := by
  intro P
  induction P with
  | nil => intro d _; rfl
  | cons p P ih =>
    intro d hne
    rw [replAllTok_cons, replTok, if_neg (fun hc => hne p (by simp) (by rw [hc]))]
    exact ih d (fun q hq => hne q (by simp [hq]))

theorem mem_fst_enumMap {p : Nat × Nat} : ∀ {n0 : Nat} {l : List Nat},
    p ∈ enumMap n0 l → p.1 ∈ l := by
  intro n0 l
  induction l generalizing n0 with
  | nil => intro h; simp [enumMap] at h
  | cons o os ih =>
    intro h
    rw [enumMap] at h
    rcases List.mem_cons.1 h with h1 | h1
    · subst h1; simp
    · exact List.mem_cons.2 (Or.inr (ih h1))

/-- The combined substitution sends a citation token with canonically
written value v, v among the collected numbers, to the plain marker of
its new number. -/
theorem replAllTok_cite : ∀ (cs : List Nat) (n0 : Nat), cs.Pairwise (· < ·) →
    (∀ c ∈ cs, n0 ≤ c) → ∀ v ∈ cs, ∀ lp rp : Bool,
    replAllTok (enumMap n0 cs) (Tok.cite ⟨lp, natRepr v, rp⟩)
      = Tok.cite ⟨false, natRepr (applyMap (enumMap n0 cs) v), false⟩ := by
  intro cs
  induction cs with
  | nil => intro n0 _ _ v hv; simp at hv
  | cons c cs2 ih =>
    intro n0 hp hge v hv lp rp
    obtain ⟨hall, htail⟩ := List.pairwise_cons.1 hp
    rw [enumMap, replAllTok_cons]
    by_cases hvc : v = c
    · subst hvc
      rw [replTok, if_pos rfl, applyMap_cons_eq]
      exact replAllTok_unch _ _ (by
        intro p hp2 hcon
        have h1 : p.1 ∈ cs2 := mem_fst_enumMap hp2
        have h2 : v < p.1 := hall p.1 h1
        have h3 : n0 ≤ v := hge v (by simp)
        have h4 : p.1 = n0 := natRepr_inj hcon
        omega)
    · rcases List.mem_cons.1 hv with h | h
      · exact absurd h hvc
      rw [replTok, if_neg (by
        intro hcon
        exact hvc (natRepr_inj hcon))]
      rw [applyMap_cons_ne _ _ (fun he => hvc he.symm)]
      exact ih (n0 + 1) htail (fun b hb => by have := hall b hb; have := hge c (by simp); omega)
        v h lp rp

/-- Specification-side tokenwise rewrite: every citation token becomes
the plain marker of the image of its number under a renumbering. -/
def simTok (fm : Nat → Nat) : Tok → Tok
  | .lit c => .lit c
  | .cite ct => .cite ⟨false, natRepr (fm (digitsVal ct.ds)), false⟩

/-- Specification-side simultaneous rewrite of a whole text, fuelled:
one single scan, replacing every citation marker in place by the plain
marker of the image of its number, leaving all other characters
unchanged.  This is the wording of the spec's rewrite step (replace
every occurrence of each original marker with its new number,
normalising parenthesised variants away). -/
def simulRewriteF (fm : Nat → Nat) : Nat → List Char → List Char
  | 0, s => s
  | _ + 1, [] => []
  | f + 1, c :: cs =>
    match matchCite (c :: cs) with
    | some (ct, r) =>
      '[' :: (natRepr (fm (digitsVal ct.ds)) ++ [']']) ++ simulRewriteF fm f r
    | none => c :: simulRewriteF fm f cs

/-- Specification-side simultaneous rewrite of a whole text. -/
def simulRewrite (fm : Nat → Nat) (s : List Char) : List Char := simulRewriteF fm s.length s

theorem simulRewriteF_succ_cite {fm : Nat → Nat} {f : Nat} {c : Char} {cs : List Char}
    {ct : Cite} {r : List Char} (h : matchCite (c :: cs) = some (ct, r)) :
    simulRewriteF fm (f + 1) (c :: cs)
      = '[' :: (natRepr (fm (digitsVal ct.ds)) ++ [']']) ++ simulRewriteF fm f r := by
  rw [simulRewriteF, h]

theorem simulRewriteF_succ_lit {fm : Nat → Nat} {f : Nat} {c : Char} {cs : List Char}
    (h : matchCite (c :: cs) = none) :
    simulRewriteF fm (f + 1) (c :: cs) = c :: simulRewriteF fm f cs := by
  rw [simulRewriteF, h]

theorem simulRewriteF_fuel (fm : Nat → Nat) :
    ∀ f1 f2 : Nat, ∀ s : List Char, s.length ≤ f1 → s.length ≤ f2 →
    simulRewriteF fm f1 s = simulRewriteF fm f2 s := by
  intro f1
  induction f1 with
  | zero =>
    intro f2 s hs _
    have : s = [] := List.length_eq_zero.1 (Nat.le_zero.1 hs)
    subst this
    cases f2 <;> rfl
  | succ f ih =>
    intro f2 s hs1 hs2
    cases s with
    | nil => cases f2 <;> rfl
    | cons c cs =>
      cases f2 with
      | zero => simp at hs2
      | succ f2 =>
        simp only [List.length_cons] at hs1 hs2
        cases hmc : matchCite (c :: cs) with
        | some pr =>
          obtain ⟨ct, r⟩ := pr
          have hlt := matchCite_length hmc
          simp only [List.length_cons] at hlt
          rw [simulRewriteF_succ_cite hmc, simulRewriteF_succ_cite hmc,
            ih f2 r (by omega) (by omega)]
        | none =>
          rw [simulRewriteF_succ_lit hmc, simulRewriteF_succ_lit hmc,
            ih f2 cs (by omega) (by omega)]

theorem simulRewrite_eq_tokens_aux (fm : Nat → Nat) : ∀ f : Nat, ∀ s : List Char,
    s.length ≤ f → simulRewrite fm s = untok ((tokens s).map (simTok fm)) := by
  intro f
  induction f with
  | zero =>
    intro s hs
    have : s = [] := List.length_eq_zero.1 (Nat.le_zero.1 hs)
    subst this; rfl
  | succ f ih =>
    intro s hs
    cases s with
    | nil => rfl
    | cons c cs =>
      simp only [List.length_cons] at hs
      cases hmc : matchCite (c :: cs) with
      | some pr =>
        obtain ⟨ct, r⟩ := pr
        have hlt := matchCite_length hmc
        simp only [List.length_cons] at hlt
        have hfuel : simulRewriteF fm cs.length r = simulRewriteF fm r.length r :=
          simulRewriteF_fuel fm cs.length r.length r (by omega) (by omega)
        rw [simulRewrite, List.length_cons, simulRewriteF_succ_cite hmc, hfuel,
          ← simulRewrite, ih r (by omega), tokens_cons_cite hmc, List.map_cons, untok]
        rw [simTok, Tok.render, Cite.render, Cite.core, parenL, parenR]
        simp
      | none =>
        rw [simulRewrite, List.length_cons, simulRewriteF_succ_lit hmc, ← simulRewrite,
          ih cs (by omega), tokens_cons_lit hmc, List.map_cons, untok]
        rfl

theorem simulRewrite_eq_tokens (fm : Nat → Nat) (s : List Char) :
    simulRewrite fm s = untok ((tokens s).map (simTok fm)) :=
  simulRewrite_eq_tokens_aux fm s.length s (Nat.le_refl _)

theorem renumber_citations_snd (s : List Char) :
    (renumber_citations s).2 = enumMap 1 (sortDedup ((findallCites s).map digitsVal)) := rfl

theorem mem_findallCites_of_tokens {s : List Char} {ct : Cite}
    (h : Tok.cite ct ∈ tokens s) : ct.ds ∈ findallCites s := by
  rw [findallCites_eq_tokens]
  exact List.mem_filterMap.2 ⟨Tok.cite ct, h, rfl⟩

/-- Under the well-written-markers hypothesis (every scanned digit group
is the canonical decimal of its value and every value is at least 1),
the sequential substitution passes of renumber_citations amount to one
simultaneous rewrite of every marker through the citation map. -/
theorem renumber_citations_rewrite (s : List Char)
    (h : ∀ ds ∈ findallCites s, ds = natRepr (digitsVal ds) ∧ 1 ≤ digitsVal ds) :
    (renumber_citations s).1 = simulRewrite (applyMap (renumber_citations s).2) s := by
  set cs := sortDedup ((findallCites s).map digitsVal) with hcs
  have hm : (renumber_citations s).2 = enumMap 1 cs := rfl
  have hfst : (renumber_citations s).1
      = untok ((tokens s).map (replAllTok (enumMap 1 cs))) :=
    (fold_replace_tokens (enumMap 1 cs) s).1
  have hge : ∀ c ∈ cs, 1 ≤ c := by
    intro c hc
    rw [hcs] at hc
    obtain ⟨ds, hds, hval⟩ := List.mem_map.1 (mem_sortDedup.1 hc)
    exact hval ▸ (h ds hds).2
  have hpw : cs.Pairwise (· < ·) := hcs ▸ sortDedup_pairwise _
  rw [hfst, hm, simulRewrite_eq_tokens]
  congr 1
  apply List.map_congr_left
  intro t ht
  cases t with
  | lit c => rw [replAllTok_lit, simTok]
  | cite ct =>
    have hds : ct.ds ∈ findallCites s := mem_findallCites_of_tokens ht
    obtain ⟨hcanon, hpos⟩ := h ct.ds hds
    have hv : digitsVal ct.ds ∈ cs := by
      rw [hcs, mem_sortDedup]
      exact List.mem_map.2 ⟨ct.ds, hds, rfl⟩
    have hct : ct = ⟨ct.lp, natRepr (digitsVal ct.ds), ct.rp⟩ := by
      obtain ⟨lp, ds, rp⟩ := ct
      simp only at hcanon ⊢
      rw [← hcanon]
    rw [simTok]
    conv =>
      lhs
      rw [hct]
    rw [replAllTok_cite cs 1 hpw hge (digitsVal ct.ds) hv ct.lp ct.rp]

theorem pyIdx_of_bounds {urls : List String} {c : Nat} (h1 : 1 ≤ c) (_h2 : c ≤ urls.length) :
    pyIdx urls ((c : Int) - 1) = urls.get? (c - 1) := by
  rw [pyIdx, if_neg (by omega)]
  congr 1
  omega

/-- Specification-side source-link block: one line per cited number in
ascending order, numbered afresh from 1, each line new-dot-space-url
with the url found at the 1-based old position. -/
def specLinkBlock (urls : List String) (olds : List Nat) : String :=
  String.intercalate "\n"
    ((enumMap 1 olds).map
      (fun q => String.mk (natRepr q.2) ++ ". " ++ ((urls.get? (q.1 - 1)).getD "")))

theorem citedLinks_of_bounds {urls : List String} : ∀ {m : List (Nat × Nat)},
    (∀ p ∈ m, 1 ≤ p.1 ∧ p.1 ≤ urls.length) →
    citedLinks m urls = some (m.map
      (fun q => String.mk (natRepr q.2) ++ ". " ++ ((urls.get? (q.1 - 1)).getD ""))) := by
  intro m
  induction m with
  | nil => intro _; rfl
  | cons p m ih =>
    intro hb
    obtain ⟨h1, h2⟩ := hb p (by simp)
    obtain ⟨old, new⟩ := p
    simp only at h1 h2
    have hget : ∃ u, urls.get? (old - 1) = some u := by
      have : old - 1 < urls.length := by omega
      exact ⟨urls.get ⟨old - 1, this⟩, List.get?_eq_get this⟩
    obtain ⟨u, hu⟩ := hget
    rw [citedLinks, pyIdx_of_bounds h1 h2, hu, ih (fun q hq => hb q (by simp [hq]))]
    have hge : urls[old - 1]? = some u := by rw [← List.get?_eq_getElem?]; exact hu
    simp [hu, hge]

theorem applyMap_enumMap_id : ∀ (k n0 v : Nat), v ∈ List.range' n0 k →
    applyMap (enumMap n0 (List.range' n0 k)) v = v := by
  intro k
  induction k with
  | zero => intro n0 v hv; simp at hv
  | succ k ih =>
    intro n0 v hv
    rw [List.range'_succ] at hv ⊢
    rw [enumMap]
    by_cases hvn : v = n0
    · subst hvn; rw [applyMap_cons_eq]
    · rcases List.mem_cons.1 hv with h | h
      · exact absurd h hvn
      · rw [applyMap_cons_ne _ _ (fun he => hvn he.symm)]
        exact ih (n0 + 1) v h

/-- Normalise a citation token to its plain (parenthesis-free) form. -/
def plainCite (ct : Cite) : Cite := ⟨false, ct.ds, false⟩

theorem plainCite_wf {ct : Cite} (h : WFC ct) : WFC (plainCite ct) := h

theorem citeDs_mapCites_plain (ts : List Tok) :
    (ts.map (mapCites plainCite)).filterMap Tok.citeDs = ts.filterMap Tok.citeDs := by
  induction ts with
  | nil => rfl
  | cons t ts ih =>
    cases t with
    | lit c => rw [List.map_cons, List.filterMap_cons, List.filterMap_cons]
               exact ih
    | cite ct =>
      rw [List.map_cons, List.filterMap_cons, List.filterMap_cons]
      simp only [mapCites, Tok.citeDs, plainCite]
      rw [ih]

/-- Try to match the specification's marker grammar only (a bracketed
number, or a bracketed fully parenthesised number; mismatched
parentheses are not markers) at the head of the string.  Used to state
what the spec's own grammar recognises, for comparison with the
scanner actually implemented by the source pattern. -/
def matchCiteStrict (s : List Char) : Option (List Char × List Char) :=
  match s with
  | [] => none
  | c :: rest =>
    if c = '[' then
      if rest.head? = some '(' then
        let ds := rest.tail.takeWhile isDig
        let r2 := rest.tail.dropWhile isDig
        if ds = [] then none
        else if r2.head? = some ')' ∧ r2.tail.head? = some ']' then some (ds, r2.tail.tail)
        else none
      else
        let ds := rest.takeWhile isDig
        let r2 := rest.dropWhile isDig
        if ds = [] then none
        else if r2.head? = some ']' then some (ds, r2.tail)
        else none
    else none

/-- Fuelled scan for the specification's strict marker grammar. -/
def findallStrictF : Nat → List Char → List (List Char)
  | 0, _ => []
  | _ + 1, [] => []
  | f + 1, c :: cs =>
    match matchCiteStrict (c :: cs) with
    | some (ds, r) => ds :: findallStrictF f r
    | none => findallStrictF f cs

/-- All markers of the specification's strict grammar in a string. -/
def findallStrict (s : List Char) : List (List Char) := findallStrictF s.length s

/-- The per-run configuration constants of src/app.py lines 15-19. -/
def SEARCH_TIME_LIMIT : Nat := 15

/-- Overall timeout constant (src/app.py line 17), used by the trace
watchdog. -/
def TOTAL_TIMEOUT : Nat := 39

/-- Oracle for the effects one fetch_webpage call observes: the outcome
of the HTTP request (none is a network-level failure raised as a
RequestException; otherwise the status code and the text of the
paragraph elements of the parsed page), how long the request took, and
the elapsed-since-call-start clock readings the interpreter trace hook
sees while the response is parsed. -/
structure FetchEnv where
  netResult : Option (Nat × List String)
  netElapsed : Nat
  parseEvents : List Nat
deriving DecidableEq

/-- Model of fetch_webpage (src/app.py lines 38-52) over an explicit
effect oracle.  requests.get(url, timeout) raises a RequestException
when the request exceeds the passed timeout or fails at network level;
raise_for_status raises for status codes in 400..599; the trace hook
installed by trace_function_factory (lines 30-36) raises TimeoutError
at the first traced event whose elapsed time since the call's start
exceeds TOTAL_TIMEOUT.  All these exceptions are caught on line 49 and
turned into (url, None); otherwise the paragraph texts joined with
single spaces are returned. -/
def fetch_webpage (url : String) (timeout : Nat) (env : FetchEnv) : String × Option String :=
  match env.netResult with
  | none => (url, none)
  | some sr =>
    if timeout < env.netElapsed then (url, none)
    else if 400 ≤ sr.1 ∧ sr.1 < 600 then (url, none)
    else if env.parseEvents.any (fun t => TOTAL_TIMEOUT < t) then (url, none)
    else (url, some (String.intercalate " " sr.2))

/-- Python dict insertion: a key already present keeps its position and
gets the new value, a new key is appended. -/
def dictInsert (k v : String) (d : List (String × String)) : List (String × String) :=
  if d.any (fun p => p.1 == k) then d.map (fun p => if p.1 == k then (k, v) else p)
  else d ++ [(k, v)]

/-- One step of the dict comprehension of google_parse_webpages
(src/app.py line 60): keep a fetch result only if its url and its page
text are both truthy (url non-empty, text present and non-empty). -/
def collectStep (d : List (String × String)) (r : String × Option String) :
    List (String × String) :=
  match r.2 with
  | some txt => if r.1 ≠ "" ∧ txt ≠ "" then dictInsert r.1 txt d else d
  | none => d

/-- Model of the dict comprehension of google_parse_webpages
(src/app.py line 60) over the fetch results in completion order,
folding into a dict with last-write-wins values. -/
def google_parse_webpages (results : List (String × Option String)) :
    List (String × String) :=
  results.foldl collectStep []

/-- Modelled from the source's concurrency structure (src/app.py lines
54-60) for a single-worker schedule: the executor runs the submitted
fetch tasks one after the other; as_completed is called without any
timeout, so the comprehension waits until every future is done; each
task's trace watchdog caps that task's own duration at TOTAL_TIMEOUT
measured from the task's own start (fetch_webpage line 40 takes
start = time.time() when the task begins running).  The collect call
therefore finishes only when the last task has finished. -/
def collectFinishTime (durations : List Nat) : Nat :=
  (durations.map (fun d => min d TOTAL_TIMEOUT)).sum

theorem mem_dictInsert {k v : String} {d : List (String × String)} {q : String × String}
    (h : q ∈ dictInsert k v d) : q = (k, v) ∨ q ∈ d := by
  rw [dictInsert] at h
  by_cases hc : d.any (fun p => p.1 == k)
  · rw [if_pos hc] at h
    obtain ⟨p, hp, hpe⟩ := List.mem_map.1 h
    by_cases hpk : p.1 == k
    · rw [if_pos hpk] at hpe; exact Or.inl hpe.symm
    · rw [if_neg hpk] at hpe; exact Or.inr (hpe ▸ hp)
  · rw [if_neg hc] at h
    rcases List.mem_append.1 h with h1 | h1
    · exact Or.inr h1
    · simp at h1; exact Or.inl h1

theorem collect_fold_mem : ∀ (rs : List (String × Option String))
    (d : List (String × String)) (q : String × String),
    q ∈ rs.foldl collectStep d → (q.2 ≠ "" ∧ (q.1, some q.2) ∈ rs) ∨ q ∈ d := by
  intro rs
  induction rs with
  | nil => intro d q h; exact Or.inr h
  | cons r rs ih =>
    intro d q h
    rw [List.foldl_cons] at h
    rcases ih (collectStep d r) q h with h1 | h1
    · exact Or.inl ⟨h1.1, by simp [h1.2]⟩
    · rw [collectStep] at h1
      obtain ⟨ru, rt⟩ := r
      cases rt with
      | none => exact Or.inr h1
      | some txt =>
        simp only at h1
        by_cases hc : ru ≠ "" ∧ txt ≠ ""
        · rw [if_pos hc] at h1
          rcases mem_dictInsert h1 with h2 | h2
          · subst h2
            exact Or.inl ⟨hc.2, by simp⟩
          · exact Or.inr h2
        · rw [if_neg hc] at h1; exact Or.inr h1

theorem renumber_citations_fst (x : List Char) :
    (renumber_citations x).1 = untok ((tokens x).map
      (replAllTok (enumMap 1 (sortDedup ((findallCites x).map digitsVal))))) :=
  (fold_replace_tokens (enumMap 1 (sortDedup ((findallCites x).map digitsVal))) x).1

theorem enumMap_range_id : ∀ (k n0 : Nat),
    enumMap n0 (List.range' n0 k) = (List.range' n0 k).map (fun i => (i, i)) := by
  intro k
  induction k with
  | zero => intro n0; rfl
  | succ k ih =>
    intro n0
    rw [List.range'_succ, enumMap, List.map_cons, ih (n0 + 1)]

/-- The citation tokens of a token list. -/
def citesOf (ts : List Tok) : List Cite :=
  ts.filterMap (fun t => match t with | .cite ct => some ct | .lit _ => none)

theorem mem_citesOf {ct : Cite} : ∀ {ts : List Tok}, ct ∈ citesOf ts ↔ Tok.cite ct ∈ ts := by
  intro ts
  induction ts with
  | nil => simp [citesOf]
  | cons t ts ih =>
    cases t with
    | lit c =>
      rw [citesOf, List.filterMap_cons]
      simp only []
      rw [← citesOf]
      simp [ih]
    | cite ct2 =>
      rw [citesOf, List.filterMap_cons]
      simp only []
      rw [← citesOf]
      simp [ih]

/-- C1.  The claim says a citation marker numbered 0 or beyond the entry
count must make reconciliation signal an out-of-range failure rather
than silently resolve.  The code violates it for 0: with one entry,
the answer "see [0]" is renumbered to "see [1]" and citation 0 is
resolved through Python's negative indexing (urls at 0-1, the last
entry) to a link block "1. a.com", returned without any failure. -/
theorem c1_zero_citation_resolved :
    reconcile "see [0]" ["a.com"] = some ("see [1]", [(0, 1)], "1. a.com") := by decide

/-- C2.  Counterexample to the claimed scenario: on entries a.com,
b.com, c.com and answer text containing X bracket-3 and Y
paren-bracket-1, the code renumbers ascending (1 before 3), so the
output answer is "X[2] and Y[1]", not the claimed "X[1] and Y[2]". -/
theorem c2_counterexample :
    reconcile "X[3] and Y[(1)]" ["a.com", "b.com", "c.com"]
      = some ("X[2] and Y[1]", [(1, 1), (3, 2)], "1. a.com\n2. c.com") ∧
    ("X[2] and Y[1]" : String) ≠ "X[1] and Y[2]" ∧
    ("1. a.com\n2. c.com" : String) ≠ "1. c.com\n2. a.com" := by decide

/-- C2 (amended).  For entries a.com, b.com, c.com and the answer text
"X[3] and Y[(1)]", reconciliation sorts the cited numbers ascending, so
it produces the renumbered answer "X[2] and Y[1]", the citation map
sending 1 to 1 and 3 to 2, and the source-link block with line
"1. a.com" followed by line "2. c.com". -/
theorem c2_amended_scenario :
    reconcile "X[3] and Y[(1)]" ["a.com", "b.com", "c.com"]
      = some ("X[2] and Y[1]", [(1, 1), (3, 2)], "1. a.com\n2. c.com") := by decide

/-- C3.  Counterexample: the text consisting of bracket, open paren, 2,
bracket contains no marker of the spec's declared forms (plain or fully
parenthesised), yet the code's scanner accepts the mismatched variant,
so the citation map is nonempty and the text is rewritten to "[1]" -
against the claim, which predicts an empty map and unchanged text built
from the declared marker forms only. -/
theorem c3_counterexample :
    findallStrict "[(2]".data = [] ∧
    renumber_citations "[(2]".data = ("[1]".data, [(2, 1)]) ∧
    "[1]".data ≠ "[(2]".data := by decide

/-- C3 (amended).  For every answer text all of whose scanner-recognised
markers (forms bracket-n, bracket-paren-n-paren, and the mismatched
variants) carry a number written canonically (no leading zeros) and at
least 1, the citation map collects the distinct marker numbers, sorted
ascending, assigning new numbers 1, 2, 3, ... in that order, and the
rewritten text is the simultaneous replacement of every marker
occurrence by its new number in plain bracket form, parenthesised
variants normalised away. -/
theorem c3_renumber_spec (s : String)
    (h : ∀ ds ∈ findallCites s.data, ds = natRepr (digitsVal ds) ∧ 1 ≤ digitsVal ds) :
    ((renumber_citations s.data).2).map Prod.fst
        = sortDedup ((findallCites s.data).map digitsVal) ∧
    ((renumber_citations s.data).2).map Prod.snd
        = List.range' 1 (sortDedup ((findallCites s.data).map digitsVal)).length ∧
    (renumber_citations s.data).1
        = simulRewrite (applyMap (renumber_citations s.data).2) s.data := by
  refine ⟨?_, ?_, renumber_citations_rewrite s.data h⟩
  · rw [renumber_citations_snd, enumMap_map_fst]
  · rw [renumber_citations_snd, enumMap_map_snd]

/-- C3 (witness). -/
theorem c3_witness :
    (∀ ds ∈ findallCites "A[2] and B[(5)]".data,
      ds = natRepr (digitsVal ds) ∧ 1 ≤ digitsVal ds) ∧
    (((renumber_citations "A[2] and B[(5)]".data).2).map Prod.fst
        = sortDedup ((findallCites "A[2] and B[(5)]".data).map digitsVal) ∧
     ((renumber_citations "A[2] and B[(5)]".data).2).map Prod.snd
        = List.range' 1 (sortDedup ((findallCites "A[2] and B[(5)]".data).map digitsVal)).length ∧
     (renumber_citations "A[2] and B[(5)]".data).1
        = simulRewrite (applyMap (renumber_citations "A[2] and B[(5)]".data).2)
            "A[2] and B[(5)]".data) :=
  ⟨by decide, c3_renumber_spec "A[2] and B[(5)]" (by decide)⟩

/-- C4.  Counterexample: with the single entry a.com, the answer text
"ok [1] and [(7]" has, under the spec's declared marker grammar, the
marker set 1 alone - a subset of 1..1 - so the claim applies and
predicts a source-link block listing the cited entry; but the code's
scanner also reads the mismatched token as citation 7, and resolving 7
against one entry raises an IndexError, so reconciliation produces no
block at all. -/
theorem c4_counterexample :
    findallStrict "ok [1] and [(7]".data = [['1']] ∧
    (∀ v ∈ (findallStrict "ok [1] and [(7]".data).map digitsVal,
      1 ≤ v ∧ v ≤ (["a.com"] : List String).length) ∧
    reconcile "ok [1] and [(7]" ["a.com"] = none := by decide

/-- C4 (amended).  For every entries list and every answer text whose
scanner-recognised citation markers (forms bracket-n,
bracket-paren-n-paren, and the mismatched variants) all carry numbers
between 1 and the entry count, reconciliation succeeds and the
source-link block lists exactly the cited numbers in ascending order,
renumbered contiguously from 1, one line per cited number of the form
new, dot, space, url, where the url is the entry at the 1-based old
position. -/
theorem c4_link_block (s : String) (urls : List String)
    (h : ∀ v ∈ (findallCites s.data).map digitsVal, 1 ≤ v ∧ v ≤ urls.length) :
    reconcile s urls = some (String.mk (renumber_citations s.data).1,
      (renumber_citations s.data).2,
      specLinkBlock urls (sortDedup ((findallCites s.data).map digitsVal))) := by
  have hb : ∀ p ∈ (renumber_citations s.data).2, 1 ≤ p.1 ∧ p.1 ≤ urls.length := by
    intro p hp
    rw [renumber_citations_snd] at hp
    have h1 : p.1 ∈ sortDedup ((findallCites s.data).map digitsVal) := mem_fst_enumMap hp
    exact h p.1 (mem_sortDedup.1 h1)
  have hlinks := citedLinks_of_bounds hb
  rw [reconcile, generate_citation_links, hlinks]
  simp only [Option.map_some']
  rw [specLinkBlock, renumber_citations_snd]

/-- C4 (witness). -/
theorem c4_witness :
    (∀ v ∈ (findallCites "see [2]".data).map digitsVal, 1 ≤ v ∧ v ≤ (["a.com", "b.com"] : List String).length) ∧
    reconcile "see [2]" ["a.com", "b.com"] = some (String.mk (renumber_citations "see [2]".data).1,
      (renumber_citations "see [2]".data).2,
      specLinkBlock ["a.com", "b.com"] (sortDedup ((findallCites "see [2]".data).map digitsVal))) :=
  ⟨by decide, c4_link_block "see [2]" ["a.com", "b.com"] (by decide)⟩

/-- C5.  Counterexample: the answer text "[1] [(2]" has, under the
spec's declared marker grammar, exactly the plain-form contiguous
marker set 1..1, so the claim applies and predicts the identical text
and the identity map on 1..1; but the code's scanner also reads the
mismatched token as citation 2, rewrites the text to "[1] [2]" and
returns the map on 1..2 - neither the identical text nor the identity
map on 1..1. -/
theorem c5_counterexample :
    findallStrict "[1] [(2]".data = [['1']] ∧
    renumber_citations "[1] [(2]".data = ("[1] [2]".data, [(1, 1), (2, 2)]) ∧
    "[1] [2]".data ≠ "[1] [(2]".data ∧
    ([(1, 1), (2, 2)] : List (Nat × Nat)) ≠ [(1, 1)] := by decide

/-- C5 (amended).  For every answer text whose scanner-recognised
citation markers are exactly the contiguous plain-form numbers 1
through k (each scanned token a plain bracketed canonical number, the
value set exactly 1..k), running the renumbering again returns the
identical text and the identity citation map on 1 through k. -/
theorem c5_idempotent (s : String) (k : Nat)
    (h1 : ∀ ct ∈ citesOf (tokens s.data), ct = ⟨false, natRepr (digitsVal ct.ds), false⟩)
    (h2 : sortDedup ((findallCites s.data).map digitsVal) = List.range' 1 k) :
    renumber_citations s.data = (s.data, (List.range' 1 k).map (fun i => (i, i))) := by
  have hsnd : (renumber_citations s.data).2 = (List.range' 1 k).map (fun i => (i, i)) := by
    rw [renumber_citations_snd, h2, enumMap_range_id]
  have hfst : (renumber_citations s.data).1 = s.data := by
    rw [renumber_citations_fst, h2]
    have hmap : (tokens s.data).map (replAllTok (enumMap 1 (List.range' 1 k)))
        = tokens s.data := by
      have hpt : ∀ t ∈ tokens s.data,
          replAllTok (enumMap 1 (List.range' 1 k)) t = id t := by
        intro t ht
        cases t with
        | lit c => rw [replAllTok_lit]; rfl
        | cite ct =>
          have hct := h1 ct (mem_citesOf.2 ht)
          have hv : digitsVal ct.ds ∈ List.range' 1 k := by
            rw [← h2, mem_sortDedup]
            exact List.mem_map.2 ⟨ct.ds, mem_findallCites_of_tokens ht, rfl⟩
          have hge : ∀ c ∈ List.range' 1 k, 1 ≤ c := by
            intro c hc
            obtain ⟨i, _, hei⟩ := List.mem_range'.1 hc
            omega
          have hpw : (List.range' 1 k).Pairwise (· < ·) := by
            have : ∀ s n step, 0 < step → (List.range' s n step).Pairwise (· < ·) := by
              intro s n
              induction n generalizing s with
              | zero => intro step _; simp
              | succ n ih =>
                intro step hstep
                rw [List.range'_succ]
                refine List.pairwise_cons.2 ⟨?_, ih (s + step) step hstep⟩
                intro b hb
                obtain ⟨i, _, hei⟩ := List.mem_range'.1 hb
                omega
            exact this 1 k 1 (by omega)
          calc replAllTok (enumMap 1 (List.range' 1 k)) (Tok.cite ct)
              = replAllTok (enumMap 1 (List.range' 1 k))
                  (Tok.cite ⟨false, natRepr (digitsVal ct.ds), false⟩) := by rw [← hct]
            _ = Tok.cite ⟨false, natRepr (applyMap (enumMap 1 (List.range' 1 k))
                  (digitsVal ct.ds)), false⟩ :=
                replAllTok_cite (List.range' 1 k) 1 hpw hge (digitsVal ct.ds) hv false false
            _ = Tok.cite ⟨false, natRepr (digitsVal ct.ds), false⟩ := by
                rw [applyMap_enumMap_id k 1 (digitsVal ct.ds) hv]
            _ = id (Tok.cite ct) := by rw [← hct]; rfl
      rw [List.map_congr_left hpt, List.map_id]
    rw [hmap, untok_tokens]
  calc renumber_citations s.data
      = ((renumber_citations s.data).1, (renumber_citations s.data).2) := rfl
    _ = (s.data, (List.range' 1 k).map (fun i => (i, i))) := by rw [hfst, hsnd]

/-- C5 (witness). -/
theorem c5_witness :
    (∀ ct ∈ citesOf (tokens "x[1] y[2]".data),
      ct = ⟨false, natRepr (digitsVal ct.ds), false⟩) ∧
    sortDedup ((findallCites "x[1] y[2]".data).map digitsVal) = List.range' 1 2 ∧
    renumber_citations "x[1] y[2]".data
      = ("x[1] y[2]".data, (List.range' 1 2).map (fun i => (i, i))) :=
  ⟨by decide, by decide, c5_idempotent "x[1] y[2]" 2 (by decide) (by decide)⟩

/-- C6.  Counterexample: the text bracket, open paren, 3, bracket
contains no marker of the spec's declared grammar, yet reconciliation
does not return it unchanged with an empty map and empty block - the
mismatched variant is scanned as citation 3, the text is rewritten and
a link line is produced. -/
theorem c6_counterexample :
    findallStrict "[(3]".data = [] ∧
    reconcile "[(3]" ["a.com", "b.com", "c.com"] = some ("[1]", [(3, 1)], "1. c.com") ∧
    ("[1]" : String) ≠ "[(3]" := by decide

/-- C6 (amended).  For every answer text in which the scanner finds no
citation marker at all (no token of any of the recognised bracketed
forms), reconciliation returns the text unchanged, an empty citation
map and an empty source-link block, as a valid non-error outcome. -/
theorem c6_no_markers (s : String) (urls : List String)
    (h : findallCites s.data = []) :
    reconcile s urls = some (s, [], "") := by
  have hrn : renumber_citations s.data = (s.data, []) := by
    rw [renumber_citations, h]
    rfl
  rw [reconcile, hrn]
  rfl

/-- C6 (witness). -/
theorem c6_witness :
    findallCites "no markers here".data = [] ∧
    reconcile "no markers here" [] = some ("no markers here", [], "") :=
  ⟨by decide, c6_no_markers "no markers here" [] (by decide)⟩

/-- C7.  Counterexample: a fetch whose request takes 1 second and whose
parsing runs until 20 seconds after the call's start - beyond the
15-second per-call timeout passed to the call but within the 39-second
TOTAL_TIMEOUT used by the trace watchdog - returns the parsed text, not
an absent-text record, so the per-call timeout is not enforced over the
fetch-and-parse duration as the claim states. -/
theorem c7_counterexample :
    fetch_webpage "http://x" SEARCH_TIME_LIMIT ⟨some (200, ["hello"]), 1, [20]⟩
      = ("http://x", some "hello") ∧
    SEARCH_TIME_LIMIT < 20 ∧ 20 ≤ TOTAL_TIMEOUT := by decide

/-- C7 (amended).  A fetch returns the input url with absent text
exactly on a network-level failure, an HTTP-client timeout (request
longer than the passed per-call timeout), an HTTP status in 400..599,
or a traced event during parsing observing more than TOTAL_TIMEOUT
seconds since the call's start; it never raises.  The watchdog
threshold is the global TOTAL_TIMEOUT constant measured from this
call's own start, not the per-call timeout, so exceeding the per-call
timeout during parsing alone does not abort the call. -/
theorem c7_fetch_characterization (url : String) (timeout : Nat) (env : FetchEnv) :
    (fetch_webpage url timeout env).1 = url ∧
    ((fetch_webpage url timeout env).2 = none ↔
      (env.netResult = none ∨ timeout < env.netElapsed ∨
       (∃ sr, env.netResult = some sr ∧ 400 ≤ sr.1 ∧ sr.1 < 600) ∨
       env.parseEvents.any (fun t => TOTAL_TIMEOUT < t) = true)) := by
  obtain ⟨nr, ne, pe⟩ := env
  cases nr with
  | none => simp [fetch_webpage]
  | some sr =>
    by_cases h1 : timeout < ne
    · simp [fetch_webpage, h1]
    · by_cases h2 : 400 ≤ sr.1 ∧ sr.1 < 600
      · simp [fetch_webpage, h1, h2]
      · by_cases h3 : pe.any (fun t => TOTAL_TIMEOUT < t)
        · simp [fetch_webpage, h1, h2, h3]
        · simp [fetch_webpage, h1, h2, h3]

/-- C8.  The claim says the collector obeys a global deadline measured
from the start of the collect call and returns within it regardless of
individual fetch durations.  The code has no such mechanism: with one
worker and two fetches of 30 seconds each - each well inside its own
39-second per-task watchdog, started at that task's own start - the
collect call finishes only after 60 seconds, past the 39-second
deadline. -/
theorem c8_global_deadline_violated :
    collectFinishTime [30, 30] = 60 ∧
    TOTAL_TIMEOUT < collectFinishTime [30, 30] ∧
    (∀ d ∈ ([30, 30] : List Nat), d ≤ TOTAL_TIMEOUT) := by decide

/-- C9.  Every entry of the mapping the collector builds carries
non-empty text, and stems from a fetch result that actually returned
that text: no failed or timed-out fetch (absent text) and no empty
extraction ever appears in the mapping. -/
theorem c9_mapping_nonempty (results : List (String × Option String)) (q : String × String)
    (h : q ∈ google_parse_webpages results) :
    q.2 ≠ "" ∧ (q.1, some q.2) ∈ results := by
  rcases collect_fold_mem results [] q h with h1 | h1
  · exact h1
  · simp at h1

/-- C9 (witness). -/
theorem c9_witness :
    ("a.com", "x") ∈ google_parse_webpages [("a.com", some "x"), ("b.com", none)] ∧
    (("a.com", "x").2 ≠ "" ∧
      (("a.com", "x").1, some ("a.com", "x").2) ∈ [("a.com", some "x"), ("b.com", none)]) :=
  ⟨by decide, c9_mapping_nonempty [("a.com", some "x"), ("b.com", none)] ("a.com", "x")
    (by decide)⟩

/-- C10.  The scanner also accepts mismatched-parenthesis variants: a
bracketed digit group with an opening parenthesis alone, or with a
closing parenthesis alone, is matched as a citation token carrying that
digit group; and the whole renumbering treats such tokens exactly like
well-formed ones - normalising every token of a text to its plain form
changes neither the rewritten text nor the citation map. -/
theorem c10_mismatched_variants :
    (∀ ds r0 : List Char, ds ≠ [] → (∀ c ∈ ds, isDig c = true) →
      matchCite ('[' :: '(' :: (ds ++ ']' :: r0)) = some (⟨true, ds, false⟩, r0) ∧
      matchCite ('[' :: (ds ++ ')' :: ']' :: r0)) = some (⟨false, ds, true⟩, r0)) ∧
    (∀ ts : List Tok, tokens (untok ts) = ts →
      (∀ ct ∈ citesOf ts, ct.ds = natRepr (digitsVal ct.ds) ∧ 1 ≤ digitsVal ct.ds) →
      renumber_citations (untok (ts.map (mapCites plainCite)))
        = renumber_citations (untok ts)) := by
  constructor
  · intro ds r0 hne hdig
    constructor
    · have hr : ('[' : Char) :: '(' :: (ds ++ ']' :: r0)
          = Cite.render ⟨true, ds, false⟩ ++ r0 := by
        rw [Cite.render, Cite.core, parenL, parenR]
        simp [List.append_assoc]
      rw [hr]
      exact matchCite_render ⟨hne, hdig⟩ r0
    · have hr : ('[' : Char) :: (ds ++ ')' :: ']' :: r0)
          = Cite.render ⟨false, ds, true⟩ ++ r0 := by
        rw [Cite.render, Cite.core, parenL, parenR]
        simp [List.append_assoc]
      rw [hr]
      exact matchCite_render ⟨hne, hdig⟩ r0
  · intro ts hcan hds
    have hts2 : tokens (untok (ts.map (mapCites plainCite))) = ts.map (mapCites plainCite) :=
      retok plainCite (fun ct hw => plainCite_wf hw) ts hcan
    have hfind : findallCites (untok (ts.map (mapCites plainCite)))
        = findallCites (untok ts) := by
      rw [findallCites_eq_tokens, findallCites_eq_tokens, hts2, hcan, citeDs_mapCites_plain]
    set cs := sortDedup ((findallCites (untok ts)).map digitsVal) with hcs
    have hge : ∀ c ∈ cs, 1 ≤ c := by
      intro c hc
      rw [hcs] at hc
      obtain ⟨d2, hd2, hval⟩ := List.mem_map.1 (mem_sortDedup.1 hc)
      rw [findallCites_eq_tokens, hcan] at hd2
      obtain ⟨t, ht, hts⟩ := List.mem_filterMap.1 hd2
      cases t with
      | lit c2 => exact absurd hts (by rw [Tok.citeDs]; simp)
      | cite ct =>
        rw [Tok.citeDs] at hts
        have := (hds ct (mem_citesOf.2 ht)).2
        rw [Option.some.inj hts] at this
        omega
    have hpw : cs.Pairwise (· < ·) := hcs ▸ sortDedup_pairwise _
    have htokeq : (ts.map (mapCites plainCite)).map (replAllTok (enumMap 1 cs))
        = ts.map (replAllTok (enumMap 1 cs)) := by
      rw [List.map_map]
      apply List.map_congr_left
      intro t ht
      cases t with
      | lit c => simp only [Function.comp_apply, mapCites, replAllTok_lit]
      | cite ct =>
        obtain ⟨hcanon, hpos⟩ := hds ct (mem_citesOf.2 ht)
        have hv : digitsVal ct.ds ∈ cs := by
          rw [hcs, mem_sortDedup]
          refine List.mem_map.2 ⟨ct.ds, ?_, rfl⟩
          rw [findallCites_eq_tokens, hcan]
          exact List.mem_filterMap.2 ⟨Tok.cite ct, ht, rfl⟩
        have h1 : mapCites plainCite (Tok.cite ct)
            = Tok.cite ⟨false, natRepr (digitsVal ct.ds), false⟩ := by
          rw [mapCites, plainCite, hcanon, digitsVal_natRepr]
        calc replAllTok (enumMap 1 cs) (mapCites plainCite (Tok.cite ct))
            = replAllTok (enumMap 1 cs)
                (Tok.cite ⟨false, natRepr (digitsVal ct.ds), false⟩) := by rw [h1]
          _ = Tok.cite ⟨false, natRepr (applyMap (enumMap 1 cs) (digitsVal ct.ds)), false⟩ :=
              replAllTok_cite cs 1 hpw hge (digitsVal ct.ds) hv false false
          _ = replAllTok (enumMap 1 cs) (Tok.cite ⟨ct.lp, natRepr (digitsVal ct.ds), ct.rp⟩) :=
              (replAllTok_cite cs 1 hpw hge (digitsVal ct.ds) hv ct.lp ct.rp).symm
          _ = replAllTok (enumMap 1 cs) (Tok.cite ct) := by
              rw [show (⟨ct.lp, natRepr (digitsVal ct.ds), ct.rp⟩ : Cite) = ct from by
                obtain ⟨lp, ds2, rp⟩ := ct
                simp only at hcanon ⊢
                rw [← hcanon]]
    have hfst : (renumber_citations (untok (ts.map (mapCites plainCite)))).1
        = (renumber_citations (untok ts)).1 := by
      rw [renumber_citations_fst, renumber_citations_fst, hfind, hts2, hcan, ← hcs, htokeq]
    have hsnd : (renumber_citations (untok (ts.map (mapCites plainCite)))).2
        = (renumber_citations (untok ts)).2 := by
      rw [renumber_citations_snd, renumber_citations_snd, hfind]
    calc renumber_citations (untok (ts.map (mapCites plainCite)))
        = ((renumber_citations (untok (ts.map (mapCites plainCite)))).1,
           (renumber_citations (untok (ts.map (mapCites plainCite)))).2) := rfl
      _ = ((renumber_citations (untok ts)).1, (renumber_citations (untok ts)).2) := by
          rw [hfst, hsnd]
      _ = renumber_citations (untok ts) := rfl

/-- C10 (witness). -/
theorem c10_witness :
    (matchCite ('[' :: '(' :: (['3'] ++ ']' :: [])) = some (⟨true, ['3'], false⟩, []) ∧
     matchCite ('[' :: (['3'] ++ ')' :: ']' :: [])) = some (⟨false, ['3'], true⟩, [])) ∧
    renumber_citations (untok ([Tok.cite ⟨true, ['3'], false⟩].map (mapCites plainCite)))
      = renumber_citations (untok [Tok.cite ⟨true, ['3'], false⟩]) :=
  ⟨c10_mismatched_variants.1 ['3'] [] (by decide) (by decide),
   c10_mismatched_variants.2 [Tok.cite ⟨true, ['3'], false⟩] (by decide) (by decide)⟩
